import Mathlib

/-!
Verification of the Quads adaptive image-decomposition engine.

Shallow embedding of `main.py`: the region statistics (`div`,
`weighted_average`, `color_from_histogram`), the quad data (`Quad.is_leaf`,
`Quad.compute_area`, `Quad.split`, `Quad.get_leaf_nodes`), the priority
structure (CPython's `heapq.heappush`/`heappop` on `(leaf, score, quad)`
tuples), the model state machine (`Model.__init__`, `Model.push`, `Model.pop`,
`Model.split`, `Model.average_error`), and the renderer's color-substitution
logic (`Model.render`).

Modelling conventions:
* Python float arithmetic is idealised as exact arithmetic: rationals where
  the source computes field operations, reals where `** 0.5` (square root)
  and `** AREA_POWER` occur.
* The pixel source (PIL) is an external collaborator; it is modelled as an
  oracle assigning to every crop box a 768-entry histogram, with the exact
  bisection properties the spec attributes to it (histogram additivity under
  the four-way split, per-channel totals equal to the region's area).
  Histogram entries are rationals so the oracle's properties can hold exactly
  at the fractional boxes produced by `Quad.split` on odd dimensions.
* The clause `try: x / y except ZeroDivisionError: 0` becomes an `if`-guarded
  division.
* Python's `round` (banker's rounding, ties to even) is `pyround` below.
-/

namespace Quads

/-! ## Definitions -/

/-- Constant `AREA_POWER = 0.95` from the configuration block. -/
noncomputable def AREA_POWER : ℝ := 0.95

/-- Constant `LEAF_SIZE = 4` from the configuration block. -/
def LEAF_SIZE : ℚ := 4

/-- Function `div(x, y)`: true division that returns `0` on
`ZeroDivisionError`. -/
def div (x y : ℚ) : ℚ := if y = 0 then 0 else x / y

/-- Sum of `f i x` over the enumerated entries `(i, x)` of a list, i.e.
Python's `sum(f(i, x) for i, x in enumerate(hist))`. -/
def enumSum (h : List ℚ) (f : ℕ → ℚ → ℚ) : ℚ :=
  (h.enum.map fun p => f p.1 p.2).sum

/-- Function `weighted_average(hist)`: the mean bucket index and the standard
deviation around it (`error ** 0.5` is `Real.sqrt`; the radicand is
nonnegative whenever the histogram entries are, which is the case for every
histogram the program computes). The mean is an exact rational; only the
final square root leaves ℚ. -/
noncomputable def weighted_average (hist : List ℚ) : ℚ × ℝ :=
  let total := hist.sum
  let value := div (enumSum hist fun i x => (i : ℚ) * x) total
  let error := div (enumSum hist fun i x => x * (value - (i : ℚ)) ^ 2) total
  (value, Real.sqrt (error : ℝ))

/-- Python's built-in `round`: round half to even (banker's rounding). -/
def pyround (q : ℚ) : ℤ :=
  if q - ⌊q⌋ < 1 / 2 then ⌊q⌋
  else if 1 / 2 < q - ⌊q⌋ then ⌊q⌋ + 1
  else if ⌊q⌋ % 2 = 0 then ⌊q⌋ else ⌊q⌋ + 1

/-- Function `color_from_histogram(hist)`: per-channel weighted averages over
the three 256-bucket slices, luma-weighted aggregate error, rounded color
triple. -/
noncomputable def color_from_histogram (hist : List ℚ) : (ℤ × ℤ × ℤ) × ℝ :=
  let r := weighted_average (hist.take 256)
  let g := weighted_average ((hist.drop 256).take 256)
  let b := weighted_average ((hist.drop 512).take 256)
  let error := r.2 * 0.2989 + g.2 * 0.5870 + b.2 * 0.1140
  ((pyround r.1, pyround g.1, pyround b.1), error)

/-- First moment `sum(i * x for i, x in enumerate(hist))`, the numerator of
the mean in `weighted_average`. -/
def S1 (h : List ℚ) : ℚ := enumSum h fun i x => (i : ℚ) * x

/-- Quadratic moment `sum(x * (c - i) ** 2 for i, x in enumerate(hist))`:
total squared deviation of the histogram from a fixed center `c`. -/
def m2 (h : List ℚ) (c : ℚ) : ℚ := enumSum h fun i x => x * (c - (i : ℚ)) ^ 2

/-- The mean bucket index computed by `weighted_average`. -/
def histMean (h : List ℚ) : ℚ := div (S1 h) h.sum

/-- The variance (pre-square-root error) computed by `weighted_average`. -/
def histVar (h : List ℚ) : ℚ := div (m2 h (histMean h)) h.sum

/-- A 256-bucket channel histogram with all mass `n` in bucket `c`:
the histogram of a single-valued channel. -/
def singleHist (c : ℕ) (n : ℚ) : List ℚ :=
  (List.range 256).map fun j => if j = c then n else 0

/-- A 768-entry histogram reporting mass `n` in bucket 0 of each of the
three channels: what PIL reports for an all-black region of `n` pixels. -/
def constHistVal (n : ℚ) : List ℚ :=
  singleHist 0 n ++ singleHist 0 n ++ singleHist 0 n

/-- A crop box `(left, top, right, bottom)` in pixel coordinates. The
program starts from integer corners but `Quad.split` uses Python's true
division, so midpoints (hence descendants' corners) can be proper dyadic
rationals; coordinates are therefore modelled as ℚ. -/
structure Box where
  l : ℚ
  t : ℚ
  r : ℚ
  b : ℚ
deriving DecidableEq

/-- Method `Quad.is_leaf`: `int(r - l <= LEAF_SIZE or b - t <= LEAF_SIZE)`.
The `int(...)` conversion makes it the 0/1 ordering component of the heap
entry tuple. -/
def is_leaf (bx : Box) : ℕ :=
  if bx.r - bx.l ≤ LEAF_SIZE ∨ bx.b - bx.t ≤ LEAF_SIZE then 1 else 0

/-- Method `Quad.compute_area`: `(r - l) * (b - t)`. -/
def compute_area (bx : Box) : ℚ := (bx.r - bx.l) * (bx.b - bx.t)

/-- The histogram an all-black raster yields for any crop box: all mass,
equal to the box's area, in bucket 0 of each channel. -/
def constHist (bx : Box) : List ℚ := constHistVal (compute_area bx)

/-- Horizontal midpoint `lr = l + (r - l) / 2` from `Quad.split`
(Python true division: no rounding). -/
def midX (bx : Box) : ℚ := bx.l + (bx.r - bx.l) / 2

/-- Vertical midpoint `tb = t + (b - t) / 2` from `Quad.split`. -/
def midY (bx : Box) : ℚ := bx.t + (bx.b - bx.t) / 2

/-- Top-left child box `(l, t, lr, tb)` from `Quad.split`. -/
def tlBox (bx : Box) : Box := ⟨bx.l, bx.t, midX bx, midY bx⟩

/-- Top-right child box `(lr, t, r, tb)` from `Quad.split`. -/
def trBox (bx : Box) : Box := ⟨midX bx, bx.t, bx.r, midY bx⟩

/-- Bottom-left child box `(l, tb, lr, b)` from `Quad.split`. -/
def blBox (bx : Box) : Box := ⟨bx.l, midY bx, midX bx, bx.b⟩

/-- Bottom-right child box `(lr, tb, r, b)` from `Quad.split`. -/
def brBox (bx : Box) : Box := ⟨midX bx, midY bx, bx.r, bx.b⟩

/-- The four child boxes of `Quad.split`, in construction (and push) order
`tl, tr, bl, br`. -/
def splitBoxList (bx : Box) : List Box := [tlBox bx, trBox bx, blBox bx, brBox bx]

/-- Pointwise sum of four equal-length histograms: the histogram of a
disjoint union of regions. -/
def histAdd4 (x1 x2 x3 x4 : List ℚ) : List ℚ :=
  List.zipWith (· + ·) x1 (List.zipWith (· + ·) x2 (List.zipWith (· + ·) x3 x4))

/-- Membership of a point in the half-open rectangle of a box (the spec's
region semantics; used to state that the four children partition the parent). -/
def pointIn (bx : Box) (x y : ℚ) : Prop :=
  bx.l ≤ x ∧ x < bx.r ∧ bx.t ≤ y ∧ y < bx.b

/-- All four corners of the box are integers. -/
def boxInt (bx : Box) : Prop :=
  (∃ z : ℤ, bx.l = (z : ℚ)) ∧ (∃ z : ℤ, bx.t = (z : ℚ))
    ∧ (∃ z : ℤ, bx.r = (z : ℚ)) ∧ (∃ z : ℤ, bx.b = (z : ℚ))

/-- What `Quad.split` actually guarantees for a box with `l < r` and `t < b`:
the four children tile the parent exactly (cover, pairwise disjointness, and
areas summing to the parent's), and the children have integer corners
whenever the parent has integer corners and both its dimensions are even —
the midpoints themselves are never rounded. -/
def SplitSpec (bx : Box) : Prop :=
  (∀ x y : ℚ, pointIn bx x y ↔
    (pointIn (tlBox bx) x y ∨ pointIn (trBox bx) x y
      ∨ pointIn (blBox bx) x y ∨ pointIn (brBox bx) x y))
  ∧ (∀ x y : ℚ, ¬(pointIn (tlBox bx) x y ∧ pointIn (trBox bx) x y))
  ∧ (∀ x y : ℚ, ¬(pointIn (tlBox bx) x y ∧ pointIn (blBox bx) x y))
  ∧ (∀ x y : ℚ, ¬(pointIn (tlBox bx) x y ∧ pointIn (brBox bx) x y))
  ∧ (∀ x y : ℚ, ¬(pointIn (trBox bx) x y ∧ pointIn (blBox bx) x y))
  ∧ (∀ x y : ℚ, ¬(pointIn (trBox bx) x y ∧ pointIn (brBox bx) x y))
  ∧ (∀ x y : ℚ, ¬(pointIn (blBox bx) x y ∧ pointIn (brBox bx) x y))
  ∧ compute_area (tlBox bx) + compute_area (trBox bx) + compute_area (blBox bx)
      + compute_area (brBox bx) = compute_area bx
  ∧ (boxInt bx → (∃ k : ℤ, bx.r - bx.l = 2 * (k : ℚ)) →
      (∃ k : ℤ, bx.b - bx.t = 2 * (k : ℚ)) →
      boxInt (tlBox bx) ∧ boxInt (trBox bx) ∧ boxInt (blBox bx) ∧ boxInt (brBox bx))

/-- The box lies inside the `W × H` raster and is well oriented. Every box
the model ever crops satisfies this. -/
def ValidBox (W H : ℚ) (bx : Box) : Prop :=
  0 ≤ bx.l ∧ bx.l ≤ bx.r ∧ bx.r ≤ W ∧ 0 ≤ bx.t ∧ bx.t ≤ bx.b ∧ bx.b ≤ H

/-- The pixel source: `self.model.im.crop(box).histogram()` as an oracle.
PIL is an external collaborator; the fields state the exact-bisection
contract the spec assigns to it: 768 buckets, nonnegative counts, per-channel
totals equal to the crop's area, and additivity under the four-way split. -/
structure ImageOracle where
  width : ℕ
  height : ℕ
  hist : Box → List ℚ
  width_pos : 0 < width
  height_pos : 0 < height
  hist_length : ∀ bx, (hist bx).length = 768
  hist_nonneg : ∀ bx, ValidBox width height bx → ∀ x ∈ hist bx, 0 ≤ x
  hist_total_r : ∀ bx, ValidBox width height bx →
    ((hist bx).take 256).sum = compute_area bx
  hist_total_g : ∀ bx, ValidBox width height bx →
    (((hist bx).drop 256).take 256).sum = compute_area bx
  hist_total_b : ∀ bx, ValidBox width height bx →
    (((hist bx).drop 512).take 256).sum = compute_area bx
  hist_split : ∀ bx, ValidBox width height bx →
    hist bx = histAdd4 (hist (tlBox bx)) (hist (trBox bx))
      (hist (blBox bx)) (hist (brBox bx))

/-- A node as constructed by `Quad.__init__`: its box, depth, the stats
computed once from the cropped histogram, the leaf flag and the area.
Children are not stored here: quads referenced by the heap are exactly the
unsplit frontier, and the tree shape is modelled separately by `QTree`. -/
structure Quad where
  box : Box
  depth : ℕ
  color : ℤ × ℤ × ℤ
  error : ℝ
  leaf : ℕ
  area : ℚ

/-- Constructor `Quad(model, box, depth)`. -/
noncomputable def mkQuad (O : ImageOracle) (bx : Box) (depth : ℕ) : Quad :=
  let ce := color_from_histogram (O.hist bx)
  ⟨bx, depth, ce.1, ce.2, is_leaf bx, compute_area bx⟩

/-- A heap entry `(quad.leaf, score, quad)` as pushed by `Model.push`. -/
abbrev Entry : Type := ℕ × ℝ × Quad

/-- Python's `<` on heap entries: lexicographic tuple comparison, falling
back to `Quad.__lt__` (comparison of `error`) when leaf flag and score tie. -/
def entryLt (x y : Entry) : Prop :=
  x.1 < y.1 ∨ (x.1 = y.1 ∧ (x.2.1 < y.2.1 ∨ (x.2.1 = y.2.1 ∧ x.2.2.error < y.2.2.error)))

noncomputable instance : DecidableRel entryLt := fun _ _ => by
  unfold entryLt
  exact inferInstance

section Heap

variable {α : Type} (lt : α → α → Prop) [DecidableRel lt]

/-- The loop of `heapq._siftdown(heap, startpos, pos)`: bubble the hole at
`pos` (conceptually holding `newitem`) up toward `startpos`, moving larger
parents down, and finally store `newitem`. As in `siftupLoop`, the `getD`
default is never consulted in the calls the program makes (the parent index
stays in range); if it were, the comparison would be `lt newitem newitem`,
which is false for the strict order used, reproducing Python's behavior of
never reading out of range here. -/
def siftdownLoop (startpos : ℕ) (newitem : α) (pos : ℕ) (heap : List α) :
    List α :=
  if h : startpos < pos then
    if lt newitem (heap.getD ((pos - 1) / 2) newitem) then
      siftdownLoop startpos newitem ((pos - 1) / 2)
        (heap.set pos (heap.getD ((pos - 1) / 2) newitem))
    else heap.set pos newitem
  else heap.set pos newitem
termination_by pos
decreasing_by
  have : (pos - 1) / 2 ≤ pos - 1 := Nat.div_le_self _ _
  omega

/-- Function `heapq._siftdown(heap, startpos, pos)`: reads
`newitem = heap[pos]` and runs the loop. -/
def pysiftdown (heap : List α) (startpos pos : ℕ) : List α :=
  match heap.get? pos with
  | some newitem => siftdownLoop lt startpos newitem pos heap
  | none => heap

/-- Function `heapq.heappush(heap, item)`: append, then sift down from the
last position with `startpos = 0`. -/
def heappush (heap : List α) (item : α) : List α :=
  pysiftdown lt (heap ++ [item]) 0 heap.length

/-- The loop of `heapq._siftup(heap, pos)`: walk the hole down to a leaf,
always moving the smaller child up, then restore `newitem` and sift it back
up with `_siftdown`. -/
def siftupLoop (endpos startpos : ℕ) (newitem : α) (pos : ℕ) (heap : List α) :
    List α :=
  let childpos := 2 * pos + 1
  if h : childpos < endpos then
    let rightpos := childpos + 1
    let cp :=
      if rightpos < endpos ∧ ¬lt (heap.getD childpos newitem) (heap.getD rightpos newitem)
      then rightpos else childpos
    siftupLoop endpos startpos newitem cp (heap.set pos (heap.getD cp newitem))
  else
    siftdownLoop lt startpos newitem pos (heap.set pos newitem)
termination_by endpos - pos
decreasing_by
  split
  next hc => omega
  next hc => omega

/-- Function `heapq._siftup(heap, pos)`. -/
def pysiftup (heap : List α) (pos : ℕ) : List α :=
  match heap.get? pos with
  | some newitem => siftupLoop lt heap.length pos newitem pos heap
  | none => heap

/-- Function `heapq.heappop(heap)`: remove the last element; if the heap is
still nonempty, remember the root, overwrite it with the last element and
sift up. `none` models the `IndexError` on an empty heap. -/
def heappop (heap : List α) : Option (α × List α) :=
  match heap.getLast? with
  | none => none
  | some lastelt =>
    match heap.dropLast with
    | [] => some (lastelt, [])
    | x :: xs => some (x, pysiftup lt (lastelt :: xs) 0)

end Heap

/-- Heap shape: position `j` is a child of position `i` in the implicit
binary tree `heapq` lays over the backing list. -/
def heapChild (i j : ℕ) : Prop := j = 2 * i + 1 ∨ j = 2 * i + 2

/-- The min-heap invariant `heapq` maintains: no child is `<` its parent. -/
def HeapInv {α : Type} (lt : α → α → Prop) (l : List α) : Prop :=
  ∀ i j x y, heapChild i j → l.get? i = some x → l.get? j = some y → ¬lt y x

/-- The lexicographic key realised by Python's tuple comparison on heap
entries: leaf flag, then score, then the quad's own `__lt__` key (error). -/
def entryKey (e : Entry) : ℕ ×ₗ (ℝ ×ₗ ℝ) := toLex (e.1, toLex (e.2.1, e.2.2.error))

/-- Score `-quad.error * (quad.area ** AREA_POWER)` computed by `Model.push`. -/
noncomputable def score (q : Quad) : ℝ := -q.error * (q.area : ℝ) ^ AREA_POWER

/-- The tuple `(quad.leaf, score, quad)` pushed by `Model.push`. -/
noncomputable def mkEntry (q : Quad) : Entry := (q.leaf, score q, q)

/-- The mutable state of a `Model`: its heap and running `error_sum`.
Width, height and the pixel data live in the (immutable) oracle. -/
structure MState where
  heap : List Entry
  error_sum : ℝ

/-- Constructor `Model.__init__`: build the root quad over the full raster,
initialise `error_sum = root.error * root.area` and push the root. -/
noncomputable def freshModel (O : ImageOracle) : MState :=
  let root := mkQuad O ⟨0, 0, (O.width : ℚ), (O.height : ℚ)⟩ 0
  { heap := heappush entryLt [] (mkEntry root)
    error_sum := root.error * (root.area : ℝ) }

/-- Method `Model.average_error`: `error_sum / (width * height)`. -/
noncomputable def average_error (O : ImageOracle) (s : MState) : ℝ :=
  s.error_sum / ((O.width : ℝ) * (O.height : ℝ))

/-- One iteration of the `for child in children` loop of `Model.split`:
`self.push(child)` followed by `self.error_sum += child.error * child.area`. -/
noncomputable def pushChild (st : MState) (c : Quad) : MState :=
  { heap := heappush entryLt st.heap (mkEntry c)
    error_sum := st.error_sum + c.error * (c.area : ℝ) }

/-- Method `Model.split`: pop the best quad, subtract its contribution,
split its box, construct the four children and push each one while adding
its contribution. `none` models the `IndexError` of popping an empty heap
(which no reachable state triggers). -/
noncomputable def model_split (O : ImageOracle) (s : MState) : Option MState :=
  match heappop entryLt s.heap with
  | none => none
  | some (e, rest) =>
    let q := e.2.2
    let children := (splitBoxList q.box).map fun bx => mkQuad O bx (q.depth + 1)
    some (children.foldl pushChild
      ⟨rest, s.error_sum - q.error * (q.area : ℝ)⟩)

/-- States reachable from a fresh model by exactly `k` successful
`Model.split()` calls. -/
inductive ReachN (O : ImageOracle) : ℕ → MState → Prop where
  | init : ReachN O 0 (freshModel O)
  | step {k : ℕ} {s s' : MState} :
      ReachN O k s → model_split O s = some s' → ReachN O (k + 1) s'

/-- States reachable from a fresh model by repeated `Model.split()`. -/
def Reach (O : ImageOracle) (s : MState) : Prop := ∃ k, ReachN O k s

/-- Every frontier quad still has both dimensions greater than 1 (the side
condition under which the spec discusses repeated splitting). -/
def BigDims (s : MState) : Prop :=
  ∀ e ∈ s.heap, 1 < e.2.2.box.r - e.2.2.box.l ∧ 1 < e.2.2.box.b - e.2.2.box.t

/-- States reachable while every frontier quad still has both dimensions
greater than 1 at each split. -/
inductive GReach (O : ImageOracle) : MState → Prop where
  | init : GReach O (freshModel O)
  | step {s s' : MState} :
      GReach O s → BigDims s → model_split O s = some s' → GReach O s'

/-- Both dimensions strictly positive: true of the root box and preserved by
halving, hence true of every quad the model constructs. -/
def PosDims (bx : Box) : Prop := bx.l < bx.r ∧ bx.t < bx.b

/-- The quad's stored fields are exactly those `Quad.__init__` computes from
its box at the given oracle, and its box is a valid sub-rectangle of the
raster with positive dimensions. -/
def QuadOK (O : ImageOracle) (q : Quad) : Prop :=
  ValidBox (O.width : ℚ) (O.height : ℚ) q.box
  ∧ PosDims q.box
  ∧ q.color = (color_from_histogram (O.hist q.box)).1
  ∧ q.error = (color_from_histogram (O.hist q.box)).2
  ∧ q.leaf = is_leaf q.box
  ∧ q.area = compute_area q.box

/-- The entry is the tuple `Model.push` builds from its quad. -/
def EntryOK (O : ImageOracle) (e : Entry) : Prop :=
  e.1 = e.2.2.leaf ∧ e.2.1 = score e.2.2 ∧ QuadOK O e.2.2

/-- The state invariant of the model: the backing list is a well-formed
`heapq` heap of well-formed entries, and `error_sum` is the sum of
`error * area` over the frontier (the entries currently in the heap). -/
def MInv (O : ImageOracle) (s : MState) : Prop :=
  HeapInv entryLt s.heap
  ∧ (∀ e ∈ s.heap, EntryOK O e)
  ∧ s.error_sum = (s.heap.map fun e => e.2.2.error * (e.2.2.area : ℝ)).sum

/-- The quad tree as rendered: a node's box, depth, representative color
and list of children (empty, or exactly the four from `Quad.split`). -/
inductive QTree : Type where
  | node (box : Box) (depth : ℕ) (color : ℤ × ℤ × ℤ) (children : List QTree)

/-- Depth accessor. -/
def QTree.depth : QTree → ℕ
  | .node _ d _ _ => d

/-- Color accessor. -/
def QTree.color : QTree → ℤ × ℤ × ℤ
  | .node _ _ c _ => c

/-- Children accessor. -/
def QTree.children : QTree → List QTree
  | .node _ _ _ cs => cs

/-- Box accessor. -/
def QTree.box : QTree → Box
  | .node bx _ _ _ => bx

/-- Method `Quad.get_leaf_nodes(max_depth)`: a node with no children is
emitted; a node whose depth has reached a supplied `max_depth` is emitted
without descending; otherwise the children are traversed in their stored
(tl, tr, bl, br) order and the results concatenated. -/
def get_leaf_nodes (t : QTree) (max_depth : Option ℕ) : List QTree :=
  match t with
  | QTree.node bx d c children =>
    if children.isEmpty then [QTree.node bx d c children]
    else if (match max_depth with
             | some md => decide (md ≤ d)
             | none => false) = true then [QTree.node bx d c children]
    else (children.attach.map fun x => get_leaf_nodes x.1 max_depth).flatten
termination_by sizeOf t
decreasing_by
  have h1 := List.sizeOf_lt_of_mem x.2
  simp only [QTree.node.sizeOf_spec] at *
  omega

/-- The color `Model.render` paints for index `i`: the node's own color
unless it is exactly black, in which case `nodes[i - 1]` is consulted —
for `i = 0` Python's negative indexing makes that the LAST node. -/
def prev_color (nodes : List QTree) (i : ℕ) : ℤ × ℤ × ℤ :=
  match (if i = 0 then nodes.getLast? else nodes.get? (i - 1)) with
  | some q => q.color
  | none => (0, 0, 0)

/-- The sequence of colors painted by the `for i, quad in enumerate(nodes)`
loop of `Model.render` (`not any(color)` holds exactly for `(0, 0, 0)`). -/
def render_colors (nodes : List QTree) : List (ℤ × ℤ × ℤ) :=
  nodes.mapIdx fun i q =>
    if q.color = (0, 0, 0) then prev_color nodes i else q.color

/-! ## Theorems -/

/-! ### Basic facts about `div` and enumerated sums -/

theorem div_zero_denom (x : ℚ) : div x 0 = 0 := by simp [div]

theorem div_of_ne {y : ℚ} (x : ℚ) (h : y ≠ 0) : div x y = x / y := by
  simp [div, h]

theorem div_nonneg_of {x y : ℚ} (hx : 0 ≤ x) (hy : 0 ≤ y) : 0 ≤ div x y := by
  unfold div
  split
  · rfl
  · positivity

theorem enumFrom_sum (f : ℕ → ℚ → ℚ) :
    ∀ (h : List ℚ) (n : ℕ),
      ((List.enumFrom n h).map fun p => f p.1 p.2).sum
        = ∑ j ∈ Finset.range h.length, f (n + j) (h.getD j 0) := by
  intro h
  induction h with
  | nil => simp
  | cons a t ih =>
    intro n
    rw [List.enumFrom_cons, List.map_cons, List.sum_cons, ih (n + 1),
      List.length_cons, Finset.sum_range_succ']
    simp only [List.getD_cons_zero, List.getD_cons_succ, Nat.add_zero]
    rw [add_comm]
    congr 1
    refine Finset.sum_congr rfl fun j _ => ?_
    congr 1
    omega

theorem enumSum_eq (h : List ℚ) (f : ℕ → ℚ → ℚ) :
    enumSum h f = ∑ j ∈ Finset.range h.length, f j (h.getD j 0) := by
  rw [enumSum, List.enum, enumFrom_sum]
  simp

theorem enumSum_cons (a : ℚ) (t : List ℚ) (f : ℕ → ℚ → ℚ) :
    enumSum (a :: t) f = f 0 a + enumSum t fun i x => f (i + 1) x := by
  rw [enumSum_eq, enumSum_eq, List.length_cons, Finset.sum_range_succ']
  simp only [List.getD_cons_zero, List.getD_cons_succ]
  rw [add_comm]

theorem enumSum_id (h : List ℚ) : (enumSum h fun _ x => x) = h.sum := by
  induction h with
  | nil => simp [enumSum]
  | cons a t ih => rw [enumSum_cons, ih, List.sum_cons]

theorem sum_getD_range (h : List ℚ) :
    ∑ j ∈ Finset.range h.length, h.getD j 0 = h.sum := by
  rw [← enumSum_eq h fun _ x => x, enumSum_id]

/-! ### The moments of a histogram -/

theorem weighted_average_eq (h : List ℚ) :
    weighted_average h = (histMean h, Real.sqrt (histVar h)) := rfl

theorem S1_cons (a : ℚ) (t : List ℚ) : S1 (a :: t) = t.sum + S1 t := by
  rw [S1, enumSum_cons]
  push_cast
  rw [enumSum_eq t]
  have h1 : S1 t = ∑ j ∈ Finset.range t.length, (j : ℚ) * t.getD j 0 := by
    rw [S1, enumSum_eq]
  rw [h1, ← sum_getD_range t, ← Finset.sum_add_distrib, zero_mul, zero_add]
  exact Finset.sum_congr rfl fun j _ => by ring

theorem m2_cons (a : ℚ) (t : List ℚ) (c : ℚ) :
    m2 (a :: t) c = a * c ^ 2 + m2 t (c - 1) := by
  rw [m2, enumSum_cons]
  push_cast
  rw [enumSum_eq, m2, enumSum_eq]
  congr 1
  · ring
  · refine Finset.sum_congr rfl fun j _ => ?_
    ring

theorem m2_nonneg {h : List ℚ} (hn : ∀ x ∈ h, 0 ≤ x) (c : ℚ) : 0 ≤ m2 h c := by
  induction h generalizing c with
  | nil => simp [m2, enumSum]
  | cons a t ih =>
    rw [m2_cons]
    have ha : 0 ≤ a := hn a (by simp)
    have ht : 0 ≤ m2 t (c - 1) := ih (fun x hx => hn x (by simp [hx])) (c - 1)
    positivity

theorem m2_sub (h : List ℚ) (c d : ℚ) :
    m2 h c - m2 h d = h.sum * (c ^ 2 - d ^ 2) - 2 * (c - d) * S1 h := by
  induction h generalizing c d with
  | nil => simp [m2, enumSum, S1]
  | cons a t ih =>
    rw [m2_cons, m2_cons, S1_cons, List.sum_cons]
    have := ih (c - 1) (d - 1)
    ring_nf
    ring_nf at this
    linarith

theorem m2_min {h : List ℚ} (hpos : 0 < h.sum) (c : ℚ) :
    m2 h (histMean h) ≤ m2 h c := by
  have hne : h.sum ≠ 0 := ne_of_gt hpos
  have hv : histMean h * h.sum = S1 h := by
    rw [histMean, div_of_ne _ hne]
    field_simp
  have hd := m2_sub h c (histMean h)
  have hs1 : S1 h = histMean h * h.sum := hv.symm
  rw [hs1] at hd
  nlinarith [mul_nonneg hpos.le (sq_nonneg (c - histMean h)), hd]

theorem m2_histVar {h : List ℚ} (hpos : 0 < h.sum) :
    m2 h (histMean h) = h.sum * histVar h := by
  rw [histVar, div_of_ne _ (ne_of_gt hpos)]
  field_simp

theorem histVar_nonneg {h : List ℚ} (hn : ∀ x ∈ h, 0 ≤ x) : 0 ≤ histVar h := by
  refine div_nonneg_of (m2_nonneg hn _) ?_
  exact List.sum_nonneg hn

theorem sum_zipWith_add :
    ∀ (g h : List ℚ), g.length = h.length →
      (List.zipWith (· + ·) g h).sum = g.sum + h.sum := by
  intro g
  induction g with
  | nil =>
    intro h hl
    have h0 : h = [] := List.length_eq_zero.mp hl.symm
    subst h0
    simp
  | cons a t ih =>
    intro h hl
    match h with
    | [] => simp at hl
    | b :: u =>
      simp only [List.zipWith_cons_cons, List.sum_cons]
      rw [ih u (by simpa using hl)]
      ring

theorem m2_zipWith_add :
    ∀ (g h : List ℚ) (c : ℚ), g.length = h.length →
      m2 (List.zipWith (· + ·) g h) c = m2 g c + m2 h c := by
  intro g
  induction g with
  | nil =>
    intro h c hl
    have h0 : h = [] := List.length_eq_zero.mp hl.symm
    subst h0
    simp [m2, enumSum]
  | cons a t ih =>
    intro h c hl
    match h with
    | [] => simp at hl
    | b :: u =>
      simp only [List.zipWith_cons_cons]
      rw [m2_cons, m2_cons, m2_cons, ih u (c - 1) (by simpa using hl)]
      ring

theorem zipWith_add_nonneg :
    ∀ (g h : List ℚ), (∀ x ∈ g, 0 ≤ x) → (∀ x ∈ h, 0 ≤ x) →
      ∀ x ∈ List.zipWith (· + ·) g h, 0 ≤ x := by
  intro g
  induction g with
  | nil => intro h _ _ x hx; simp at hx
  | cons a t ih =>
    intro h hg hh x hx
    match h with
    | [] => simp at hx
    | b :: u =>
      simp only [List.zipWith_cons_cons, List.mem_cons] at hx
      rcases hx with hx | hx
      · have ha : 0 ≤ a := hg a (by simp)
        have hb : 0 ≤ b := hh b (by simp)
        rw [hx]; positivity
      · exact ih u (fun y hy => hg y (by simp [hy])) (fun y hy => hh y (by simp [hy])) x hx

/-! ### Splitting a histogram into four parts can only lower the
area-weighted standard deviation (law of total variance + Cauchy–Schwarz) -/

set_option maxHeartbeats 1000000 in
theorem cs_four (a1 a2 a3 a4 s1 s2 s3 s4 : ℝ)
    (ha1 : 0 ≤ a1) (ha2 : 0 ≤ a2) (ha3 : 0 ≤ a3) (ha4 : 0 ≤ a4) :
    (a1 * s1 + a2 * s2 + a3 * s3 + a4 * s4) ^ 2
      ≤ (a1 + a2 + a3 + a4)
        * (a1 * s1 ^ 2 + a2 * s2 ^ 2 + a3 * s3 ^ 2 + a4 * s4 ^ 2) := by
  nlinarith [mul_nonneg (mul_nonneg ha1 ha2) (sq_nonneg (s1 - s2)),
    mul_nonneg (mul_nonneg ha1 ha3) (sq_nonneg (s1 - s3)),
    mul_nonneg (mul_nonneg ha1 ha4) (sq_nonneg (s1 - s4)),
    mul_nonneg (mul_nonneg ha2 ha3) (sq_nonneg (s2 - s3)),
    mul_nonneg (mul_nonneg ha2 ha4) (sq_nonneg (s2 - s4)),
    mul_nonneg (mul_nonneg ha3 ha4) (sq_nonneg (s3 - s4))]

theorem channel_split_le
    (h1 h2 h3 h4 : List ℚ) (a1 a2 a3 a4 : ℚ)
    (n1 : ∀ x ∈ h1, 0 ≤ x) (n2 : ∀ x ∈ h2, 0 ≤ x)
    (n3 : ∀ x ∈ h3, 0 ≤ x) (n4 : ∀ x ∈ h4, 0 ≤ x)
    (t1 : h1.sum = a1) (t2 : h2.sum = a2) (t3 : h3.sum = a3) (t4 : h4.sum = a4)
    (p1 : 0 < a1) (p2 : 0 < a2) (p3 : 0 < a3) (p4 : 0 < a4)
    (l2 : h2.length = h1.length) (l3 : h3.length = h1.length)
    (l4 : h4.length = h1.length) :
    (a1 : ℝ) * Real.sqrt (histVar h1) + (a2 : ℝ) * Real.sqrt (histVar h2)
      + (a3 : ℝ) * Real.sqrt (histVar h3) + (a4 : ℝ) * Real.sqrt (histVar h4)
    ≤ ((a1 : ℝ) + a2 + a3 + a4) *
        Real.sqrt (histVar (histAdd4 h1 h2 h3 h4)) := by
  rw [histAdd4]
  set H : List ℚ :=
    List.zipWith (· + ·) h1
      (List.zipWith (· + ·) h2 (List.zipWith (· + ·) h3 h4)) with hH
  have l34 : h3.length = h4.length := by rw [l3, l4]
  have lh34 : (List.zipWith (· + ·) h3 h4).length = h1.length := by
    rw [List.length_zipWith, l3, l4, min_self]
  have l234 : h2.length = (List.zipWith (· + ·) h3 h4).length := by rw [l2, lh34]
  have lh234 :
      (List.zipWith (· + ·) h2 (List.zipWith (· + ·) h3 h4)).length
        = h1.length := by
    rw [List.length_zipWith, l2, lh34, min_self]
  have sum34 : (List.zipWith (· + ·) h3 h4).sum = a3 + a4 := by
    rw [sum_zipWith_add h3 h4 l34, t3, t4]
  have sum234 :
      (List.zipWith (· + ·) h2 (List.zipWith (· + ·) h3 h4)).sum
        = a2 + (a3 + a4) := by
    rw [sum_zipWith_add h2 _ l234, t2, sum34]
  have sumH : H.sum = a1 + (a2 + (a3 + a4)) := by
    rw [hH, sum_zipWith_add h1 _ lh234.symm, t1, sum234]
  have m2H : ∀ c, m2 H c = m2 h1 c + (m2 h2 c + (m2 h3 c + m2 h4 c)) := by
    intro c
    rw [hH, m2_zipWith_add h1 _ c lh234.symm, m2_zipWith_add h2 _ c l234,
      m2_zipWith_add h3 h4 c l34]
  have n34 := zipWith_add_nonneg h3 h4 n3 n4
  have n234 := zipWith_add_nonneg h2 _ n2 n34
  have nH : ∀ x ∈ H, 0 ≤ x := zipWith_add_nonneg h1 _ n1 n234
  have s1pos : 0 < h1.sum := by rw [t1]; exact p1
  have s2pos : 0 < h2.sum := by rw [t2]; exact p2
  have s3pos : 0 < h3.sum := by rw [t3]; exact p3
  have s4pos : 0 < h4.sum := by rw [t4]; exact p4
  have sHpos : 0 < H.sum := by rw [sumH]; positivity
  have qkey :
      a1 * histVar h1 + a2 * histVar h2 + a3 * histVar h3 + a4 * histVar h4
        ≤ (a1 + a2 + a3 + a4) * histVar H := by
    have e1 := m2_histVar s1pos
    have e2 := m2_histVar s2pos
    have e3 := m2_histVar s3pos
    have e4 := m2_histVar s4pos
    rw [t1] at e1; rw [t2] at e2; rw [t3] at e3; rw [t4] at e4
    have b1 : m2 h1 (histMean h1) ≤ m2 h1 (histMean H) := m2_min s1pos _
    have b2 : m2 h2 (histMean h2) ≤ m2 h2 (histMean H) := m2_min s2pos _
    have b3 : m2 h3 (histMean h3) ≤ m2 h3 (histMean H) := m2_min s3pos _
    have b4 : m2 h4 (histMean h4) ≤ m2 h4 (histMean H) := m2_min s4pos _
    have eH := m2_histVar sHpos
    rw [sumH] at eH
    have eH' : m2 H (histMean H)
        = a1 * histVar H + a2 * histVar H + a3 * histVar H + a4 * histVar H := by
      rw [eH]; ring
    have em := m2H (histMean H)
    have goal' : (a1 + a2 + a3 + a4) * histVar H
        = a1 * histVar H + a2 * histVar H + a3 * histVar H + a4 * histVar H := by
      ring
    rw [goal']
    linarith
  have v1nn : (0 : ℚ) ≤ histVar h1 := histVar_nonneg n1
  have v2nn : (0 : ℚ) ≤ histVar h2 := histVar_nonneg n2
  have v3nn : (0 : ℚ) ≤ histVar h3 := histVar_nonneg n3
  have v4nn : (0 : ℚ) ≤ histVar h4 := histVar_nonneg n4
  have vHnn : (0 : ℚ) ≤ histVar H := histVar_nonneg nH
  set s1 : ℝ := Real.sqrt (histVar h1) with hs1
  set s2 : ℝ := Real.sqrt (histVar h2) with hs2
  set s3 : ℝ := Real.sqrt (histVar h3) with hs3
  set s4 : ℝ := Real.sqrt (histVar h4) with hs4
  have s1nn : 0 ≤ s1 := Real.sqrt_nonneg _
  have s2nn : 0 ≤ s2 := Real.sqrt_nonneg _
  have s3nn : 0 ≤ s3 := Real.sqrt_nonneg _
  have s4nn : 0 ≤ s4 := Real.sqrt_nonneg _
  have sq1 : s1 ^ 2 = (histVar h1 : ℝ) := Real.sq_sqrt (by exact_mod_cast v1nn)
  have sq2 : s2 ^ 2 = (histVar h2 : ℝ) := Real.sq_sqrt (by exact_mod_cast v2nn)
  have sq3 : s3 ^ 2 = (histVar h3 : ℝ) := Real.sq_sqrt (by exact_mod_cast v3nn)
  have sq4 : s4 ^ 2 = (histVar h4 : ℝ) := Real.sq_sqrt (by exact_mod_cast v4nn)
  have a1R : (0 : ℝ) < a1 := by exact_mod_cast p1
  have a2R : (0 : ℝ) < a2 := by exact_mod_cast p2
  have a3R : (0 : ℝ) < a3 := by exact_mod_cast p3
  have a4R : (0 : ℝ) < a4 := by exact_mod_cast p4
  have qkeyR :
      (a1 : ℝ) * s1 ^ 2 + (a2 : ℝ) * s2 ^ 2 + (a3 : ℝ) * s3 ^ 2
          + (a4 : ℝ) * s4 ^ 2
        ≤ ((a1 : ℝ) + a2 + a3 + a4) * (histVar H : ℝ) := by
    rw [sq1, sq2, sq3, sq4]
    exact_mod_cast qkey
  set AR : ℝ := (a1 : ℝ) + a2 + a3 + a4 with hAR
  have ARpos : 0 < AR := by positivity
  set X : ℝ := (a1 : ℝ) * s1 + (a2 : ℝ) * s2 + (a3 : ℝ) * s3 + (a4 : ℝ) * s4
    with hX
  have Xnn : 0 ≤ X := by positivity
  have cauchy :
      X ^ 2 ≤ AR * ((a1 : ℝ) * s1 ^ 2 + (a2 : ℝ) * s2 ^ 2 + (a3 : ℝ) * s3 ^ 2
        + (a4 : ℝ) * s4 ^ 2) := by
    rw [hX, hAR]
    exact cs_four _ _ _ _ _ _ _ _ a1R.le a2R.le a3R.le a4R.le
  have key2 : X ^ 2 ≤ AR ^ 2 * (histVar H : ℝ) := by
    calc X ^ 2 ≤ AR * ((a1 : ℝ) * s1 ^ 2 + (a2 : ℝ) * s2 ^ 2
        + (a3 : ℝ) * s3 ^ 2 + (a4 : ℝ) * s4 ^ 2) := cauchy
    _ ≤ AR * (AR * (histVar H : ℝ)) :=
        mul_le_mul_of_nonneg_left qkeyR ARpos.le
    _ = AR ^ 2 * (histVar H : ℝ) := by ring
  have vHnnR : (0 : ℝ) ≤ (histVar H : ℝ) := by exact_mod_cast vHnn
  have final : X ≤ AR * Real.sqrt (histVar H) := by
    have hrw : AR * Real.sqrt (histVar H)
        = Real.sqrt (AR ^ 2 * (histVar H : ℝ)) := by
      rw [Real.sqrt_mul (by positivity), Real.sqrt_sq ARpos.le]
    rw [hrw]
    exact (Real.le_sqrt Xnn (by positivity)).mpr key2
  exact final

/-! ### Rounding and channel-range lemmas -/

theorem pyround_intCast (n : ℤ) : pyround ((n : ℚ)) = n := by
  unfold pyround
  rw [Int.floor_intCast, sub_self]
  norm_num

theorem pyround_nonneg {q : ℚ} (h : 0 ≤ q) : 0 ≤ pyround q := by
  unfold pyround
  have hf : 0 ≤ ⌊q⌋ := Int.floor_nonneg.mpr h
  split_ifs <;> omega

theorem pyround_le {q : ℚ} (h : q ≤ 255) : pyround q ≤ 255 := by
  unfold pyround
  have hf : ⌊q⌋ ≤ 255 := by
    have h2 : ⌊q⌋ ≤ ⌊(255 : ℚ)⌋ := Int.floor_le_floor h
    simpa using h2
  have hfl : (⌊q⌋ : ℚ) ≤ q := Int.floor_le q
  split_ifs with h1 h2 h3
  · exact hf
  · have hq : (⌊q⌋ : ℚ) < 255 := by linarith
    have hq' : ⌊q⌋ < 255 := by exact_mod_cast hq
    omega
  · exact hf
  · push_neg at h1
    have hq : (⌊q⌋ : ℚ) < 255 := by linarith
    have hq' : ⌊q⌋ < 255 := by exact_mod_cast hq
    omega

theorem getD_nonneg {h : List ℚ} (hn : ∀ x ∈ h, 0 ≤ x) (j : ℕ) :
    0 ≤ h.getD j 0 := by
  rcases Nat.lt_or_ge j h.length with hl | hl
  · rw [List.getD_eq_getElem h 0 hl]
    exact hn _ (List.getElem_mem hl)
  · rw [List.getD_eq_default h 0 hl]

theorem S1_nonneg {h : List ℚ} (hn : ∀ x ∈ h, 0 ≤ x) : 0 ≤ S1 h := by
  rw [S1, enumSum_eq]
  refine Finset.sum_nonneg fun j _ => ?_
  exact mul_nonneg (by positivity) (getD_nonneg hn j)

theorem S1_le_255 {h : List ℚ} (hn : ∀ x ∈ h, 0 ≤ x) (hlen : h.length ≤ 256) :
    S1 h ≤ 255 * h.sum := by
  rw [S1, enumSum_eq, ← sum_getD_range h, Finset.mul_sum]
  refine Finset.sum_le_sum fun j hj => ?_
  have hj' : j < h.length := Finset.mem_range.mp hj
  have hjq : (j : ℚ) ≤ 255 := by
    have : j ≤ 255 := by omega
    exact_mod_cast this
  exact mul_le_mul_of_nonneg_right hjq (getD_nonneg hn j)

theorem histMean_nonneg {h : List ℚ} (hn : ∀ x ∈ h, 0 ≤ x) : 0 ≤ histMean h :=
  div_nonneg_of (S1_nonneg hn) (List.sum_nonneg hn)

theorem histMean_le_255 {h : List ℚ} (hn : ∀ x ∈ h, 0 ≤ x)
    (hlen : h.length ≤ 256) : histMean h ≤ 255 := by
  rw [histMean, div]
  split
  · norm_num
  · next hs =>
    have hpos : 0 < h.sum := lt_of_le_of_ne (List.sum_nonneg hn) (Ne.symm hs)
    rw [div_le_iff hpos]
    have := S1_le_255 hn hlen
    linarith

theorem color_from_histogram_bounds (h : List ℚ) (hn : ∀ x ∈ h, 0 ≤ x) :
    (0 ≤ (color_from_histogram h).1.1 ∧ (color_from_histogram h).1.1 ≤ 255)
    ∧ (0 ≤ (color_from_histogram h).1.2.1 ∧ (color_from_histogram h).1.2.1 ≤ 255)
    ∧ (0 ≤ (color_from_histogram h).1.2.2 ∧ (color_from_histogram h).1.2.2 ≤ 255)
    ∧ 0 ≤ (color_from_histogram h).2 := by
  have nR : ∀ x ∈ h.take 256, 0 ≤ x := fun x hx => hn x (List.mem_of_mem_take hx)
  have nG : ∀ x ∈ (h.drop 256).take 256, 0 ≤ x := fun x hx =>
    hn x (List.mem_of_mem_drop (List.mem_of_mem_take hx))
  have nB : ∀ x ∈ (h.drop 512).take 256, 0 ≤ x := fun x hx =>
    hn x (List.mem_of_mem_drop (List.mem_of_mem_take hx))
  have lR : (h.take 256).length ≤ 256 := by
    rw [List.length_take]
    omega
  have lG : ((h.drop 256).take 256).length ≤ 256 := by
    rw [List.length_take]
    omega
  have lB : ((h.drop 512).take 256).length ≤ 256 := by
    rw [List.length_take]
    omega
  unfold color_from_histogram
  simp only [weighted_average_eq]
  refine ⟨⟨pyround_nonneg (histMean_nonneg nR), pyround_le (histMean_le_255 nR lR)⟩,
    ⟨pyround_nonneg (histMean_nonneg nG), pyround_le (histMean_le_255 nG lG)⟩,
    ⟨pyround_nonneg (histMean_nonneg nB), pyround_le (histMean_le_255 nB lB)⟩, ?_⟩
  have r1 := Real.sqrt_nonneg ((histVar (h.take 256) : ℝ))
  have r2 := Real.sqrt_nonneg ((histVar ((h.drop 256).take 256) : ℝ))
  have r3 := Real.sqrt_nonneg ((histVar ((h.drop 512).take 256) : ℝ))
  positivity

/-! ### Degenerate and uniform histograms -/

theorem weighted_average_replicate_zero (n : ℕ) :
    weighted_average (List.replicate n (0 : ℚ)) = (0, 0) := by
  have hs : (List.replicate n (0 : ℚ)).sum = 0 := by simp
  rw [weighted_average_eq]
  have hm : histMean (List.replicate n (0 : ℚ)) = 0 := by
    rw [histMean, hs, div_zero_denom]
  have hv : histVar (List.replicate n (0 : ℚ)) = 0 := by
    rw [histVar, hs, div_zero_denom]
  rw [hm, hv]
  norm_num

theorem singleHist_length (c : ℕ) (n : ℚ) : (singleHist c n).length = 256 := by
  simp [singleHist]

theorem singleHist_getD {c j : ℕ} (n : ℚ) (hj : j < 256) :
    (singleHist c n).getD j 0 = if j = c then n else 0 := by
  rw [singleHist, List.getD_eq_get?, List.get?_map, List.get?_range hj]
  rfl

theorem singleHist_sum {c : ℕ} (n : ℚ) (hc : c < 256) :
    (singleHist c n).sum = n := by
  rw [← sum_getD_range, singleHist_length]
  rw [Finset.sum_congr rfl fun j hj =>
    singleHist_getD n (Finset.mem_range.mp hj)]
  rw [Finset.sum_ite_eq' (Finset.range 256) c fun _ => n]
  simp [hc]

theorem singleHist_S1 {c : ℕ} (n : ℚ) (hc : c < 256) :
    S1 (singleHist c n) = c * n := by
  rw [S1, enumSum_eq, singleHist_length]
  have step : ∀ j ∈ Finset.range 256,
      (j : ℚ) * (singleHist c n).getD j 0 = if j = c then (c : ℚ) * n else 0 := by
    intro j hj
    rw [singleHist_getD n (Finset.mem_range.mp hj)]
    split
    · next hjc => rw [hjc]
    · ring
  rw [Finset.sum_congr rfl step, Finset.sum_ite_eq' (Finset.range 256) c
    fun _ => (c : ℚ) * n]
  simp [hc]

theorem singleHist_m2_self {c : ℕ} (n : ℚ) (hc : c < 256) :
    m2 (singleHist c n) ((c : ℚ)) = 0 := by
  rw [m2, enumSum_eq, singleHist_length]
  refine Finset.sum_eq_zero fun j _ => ?_
  rcases Nat.lt_or_ge j 256 with hj | hj
  · rw [singleHist_getD n hj]
    split
    · next hjc => rw [hjc]; ring
    · ring
  · rw [List.getD_eq_default _ 0 (by rw [singleHist_length]; omega)]
    ring

theorem weighted_average_single {c : ℕ} {n : ℚ} (hc : c < 256) (hn : n ≠ 0) :
    weighted_average (singleHist c n) = ((c : ℚ), 0) := by
  rw [weighted_average_eq]
  have hsum := singleHist_sum n hc
  have hmean : histMean (singleHist c n) = (c : ℚ) := by
    rw [histMean, hsum, singleHist_S1 n hc, div_of_ne _ hn]
    field_simp
  have hvar : histVar (singleHist c n) = 0 := by
    rw [histVar, hmean, singleHist_m2_self n hc, hsum, div_of_ne _ hn, zero_div]
  rw [hmean, hvar]
  norm_num

/-- C5: for the all-zero 768-entry histogram (a zero-pixel region),
`color_from_histogram` returns color `(0, 0, 0)` and error `0`, and every
division with a zero denominator yields `0` instead of raising. -/
theorem C5_zero_histogram :
    color_from_histogram (List.replicate 768 (0 : ℚ)) = ((0, 0, 0), 0)
      ∧ ∀ x : ℚ, div x 0 = 0 := by
  constructor
  · have h1 : (List.replicate 768 (0 : ℚ)).take 256 = List.replicate 256 0 := by
      rw [List.take_replicate]
      norm_num
    have h2 : ((List.replicate 768 (0 : ℚ)).drop 256).take 256
        = List.replicate 256 0 := by
      rw [List.drop_replicate, List.take_replicate]
      norm_num
    have h3 : ((List.replicate 768 (0 : ℚ)).drop 512).take 256
        = List.replicate 256 0 := by
      rw [List.drop_replicate, List.take_replicate]
      norm_num
    have hp : pyround 0 = 0 := by simpa using pyround_intCast 0
    unfold color_from_histogram
    rw [h1, h2, h3, weighted_average_replicate_zero]
    simp [hp]
  · exact div_zero_denom

/-- C6: a histogram triple of a region whose pixels all have the identical
color `(cr, cg, cb)` — all counts of each channel concentrated in the single
bucket of that channel's value, with at least one pixel — yields exactly that
color and error `0`. -/
theorem C6_uniform_region (cr cg cb N : ℕ)
    (hr : cr < 256) (hg : cg < 256) (hb : cb < 256) (hN : 0 < N) :
    color_from_histogram
        (singleHist cr (N : ℚ) ++ singleHist cg (N : ℚ) ++ singleHist cb (N : ℚ))
      = (((cr : ℤ), (cg : ℤ), (cb : ℤ)), 0) := by
  have hNq : (N : ℚ) ≠ 0 := Nat.cast_ne_zero.mpr hN.ne'
  have hsliceR :
      (singleHist cr (N : ℚ) ++ singleHist cg (N : ℚ) ++ singleHist cb (N : ℚ)).take 256
        = singleHist cr (N : ℚ) := by
    rw [List.append_assoc, List.take_left' (singleHist_length cr (N : ℚ))]
  have hsliceG :
      ((singleHist cr (N : ℚ) ++ singleHist cg (N : ℚ) ++ singleHist cb (N : ℚ)).drop 256).take 256
        = singleHist cg (N : ℚ) := by
    rw [List.append_assoc, List.drop_left' (singleHist_length cr (N : ℚ)),
      List.take_left' (singleHist_length cg (N : ℚ))]
  have hsliceB :
      ((singleHist cr (N : ℚ) ++ singleHist cg (N : ℚ) ++ singleHist cb (N : ℚ)).drop 512).take 256
        = singleHist cb (N : ℚ) := by
    have hlen : (singleHist cr (N : ℚ) ++ singleHist cg (N : ℚ)).length = 512 := by
      rw [List.length_append, singleHist_length, singleHist_length]
    rw [List.drop_left' hlen, List.take_of_length_le (le_of_eq (singleHist_length _ _))]
  have hcastR : ((cr : ℕ) : ℚ) = (((cr : ℤ)) : ℚ) := by push_cast; rfl
  have hcastG : ((cg : ℕ) : ℚ) = (((cg : ℤ)) : ℚ) := by push_cast; rfl
  have hcastB : ((cb : ℕ) : ℚ) = (((cb : ℤ)) : ℚ) := by push_cast; rfl
  unfold color_from_histogram
  rw [hsliceR, hsliceG, hsliceB, weighted_average_single hr hNq,
    weighted_average_single hg hNq, weighted_average_single hb hNq]
  simp only []
  rw [hcastR, hcastG, hcastB, pyround_intCast, pyround_intCast, pyround_intCast]
  norm_num

/-- Witness for C6 at the concrete color `(7, 8, 9)` with one pixel. -/
theorem C6_uniform_region_witness :
    (7 < 256 ∧ 8 < 256 ∧ 9 < 256 ∧ 0 < 1)
    ∧ color_from_histogram
        (singleHist 7 ((1 : ℕ) : ℚ) ++ singleHist 8 ((1 : ℕ) : ℚ)
          ++ singleHist 9 ((1 : ℕ) : ℚ))
      = ((((7 : ℕ) : ℤ), ((8 : ℕ) : ℤ), ((9 : ℕ) : ℤ)), 0) :=
  ⟨by norm_num,
    C6_uniform_region 7 8 9 1 (by norm_num) (by norm_num) (by norm_num)
      (by norm_num)⟩

/-! ### The leaf enumeration (`Quad.get_leaf_nodes`) -/

theorem get_leaf_nodes_of_leaf (bx : Box) (d : ℕ) (c : ℤ × ℤ × ℤ)
    (md : Option ℕ) :
    get_leaf_nodes (QTree.node bx d c []) md = [QTree.node bx d c []] := by
  rw [get_leaf_nodes.eq_def]
  simp

theorem get_leaf_nodes_of_capped (bx : Box) (d : ℕ) (c : ℤ × ℤ × ℤ)
    (children : List QTree) (md : ℕ) (h : md ≤ d) :
    get_leaf_nodes (QTree.node bx d c children) (some md)
      = [QTree.node bx d c children] := by
  rw [get_leaf_nodes.eq_def]
  rcases children with _ | ⟨a, t⟩
  · simp
  · simp [h]

theorem get_leaf_nodes_of_rec (bx : Box) (d : ℕ) (c : ℤ × ℤ × ℤ)
    (children : List QTree) (md : Option ℕ) (hc : children ≠ [])
    (hmd : ∀ d', md = some d' → d < d') :
    get_leaf_nodes (QTree.node bx d c children) md
      = (children.map fun ch => get_leaf_nodes ch md).flatten := by
  rw [get_leaf_nodes.eq_def]
  have hce : children.isEmpty = false := by
    rcases children with _ | ⟨a, t⟩
    · exact absurd rfl hc
    · rfl
  rcases md with _ | md'
  · simp only [hce, Bool.false_eq_true, if_false]
    congr 1
    exact List.attach_map_val children fun ch => get_leaf_nodes ch none
  · have hlt := hmd md' rfl
    have hdec : decide (md' ≤ d) = false := by
      simp only [decide_eq_false_iff_not]
      omega
    simp only [hce, hdec, Bool.false_eq_true, if_false]
    congr 1
    exact List.attach_map_val children fun ch => get_leaf_nodes ch (some md')

theorem mem_get_leaf_nodes :
    ∀ (n : ℕ) (t : QTree), sizeOf t ≤ n → ∀ (md : Option ℕ) (q : QTree),
      q ∈ get_leaf_nodes t md →
      q.children = [] ∨ ∃ d, md = some d ∧ d ≤ q.depth := by
  intro n
  induction n with
  | zero =>
    intro t ht
    match t with
    | QTree.node bx d c children =>
      rw [QTree.node.sizeOf_spec] at ht
      omega
  | succ n ih =>
    intro t ht md q hq
    match t with
    | QTree.node bx d c children =>
      rcases children with _ | ⟨a, rest⟩
      · rw [get_leaf_nodes_of_leaf] at hq
        simp at hq
        subst hq
        left
        rfl
      · by_cases hcap : ∃ md', md = some md' ∧ md' ≤ d
        · rcases hcap with ⟨md', rfl, hle⟩
          rw [get_leaf_nodes_of_capped _ _ _ _ _ hle] at hq
          simp at hq
          subst hq
          right
          exact ⟨md', rfl, hle⟩
        · have hmd : ∀ d', md = some d' → d < d' := by
            intro d' hd'
            by_contra hlt
            exact hcap ⟨d', hd', by omega⟩
          rw [get_leaf_nodes_of_rec _ _ _ _ _ (by simp) hmd] at hq
          rw [List.mem_flatten] at hq
          rcases hq with ⟨l, hl, hql⟩
          rw [List.mem_map] at hl
          rcases hl with ⟨ch, hch, rfl⟩
          refine ih ch ?_ md q hql
          have hlt := List.sizeOf_lt_of_mem hch
          rw [QTree.node.sizeOf_spec] at ht
          omega

/-- C9: `get_leaf_nodes` emits a node exactly when it has no children or
(`max_depth` supplied) its depth has reached `max_depth`, descends in the
stored child order otherwise, and on a depth-0 root with `max_depth = 0`
returns exactly `[root]` whether or not the root has been split. -/
theorem C9_get_leaf_nodes :
    (∀ (t : QTree) (md : Option ℕ),
        (t.children = [] ∨ ∃ d, md = some d ∧ d ≤ t.depth) →
        get_leaf_nodes t md = [t])
    ∧ (∀ (t : QTree) (md : Option ℕ), t.children ≠ [] →
        (∀ d', md = some d' → t.depth < d') →
        get_leaf_nodes t md = (t.children.map fun ch => get_leaf_nodes ch md).flatten)
    ∧ (∀ (t : QTree) (md : Option ℕ) (q : QTree), q ∈ get_leaf_nodes t md →
        q.children = [] ∨ ∃ d, md = some d ∧ d ≤ q.depth)
    ∧ (∀ (bx : Box) (c : ℤ × ℤ × ℤ) (children : List QTree),
        get_leaf_nodes (QTree.node bx 0 c children) (some 0)
          = [QTree.node bx 0 c children]) := by
  refine ⟨?_, ?_, ?_, ?_⟩
  · rintro ⟨bx, d, c, children⟩ md h
    rcases h with h | ⟨d', rfl, hle⟩
    · have : children = [] := h
      subst this
      exact get_leaf_nodes_of_leaf bx d c md
    · rcases children with _ | ⟨a, rest⟩
      · exact get_leaf_nodes_of_leaf bx d c _
      · exact get_leaf_nodes_of_capped bx d c _ d' hle
  · rintro ⟨bx, d, c, children⟩ md hc hmd
    exact get_leaf_nodes_of_rec bx d c children md hc hmd
  · intro t md q hq
    exact mem_get_leaf_nodes (sizeOf t) t le_rfl md q hq
  · intro bx c children
    rcases children with _ | ⟨a, rest⟩
    · exact get_leaf_nodes_of_leaf bx 0 c _
    · exact get_leaf_nodes_of_capped bx 0 c _ 0 le_rfl

/-- Witness for C9: the emission rule applied to a concrete split root of
depth 0 under a depth-0 cap, with the rule's hypothesis discharged. -/
theorem C9_get_leaf_nodes_witness :
    ((QTree.node ⟨0, 0, 2, 2⟩ 0 (1, 2, 3)
          [QTree.node ⟨0, 0, 1, 1⟩ 1 (4, 5, 6) []]).children = []
        ∨ ∃ d, (some 0 : Option ℕ) = some d
            ∧ d ≤ (QTree.node ⟨0, 0, 2, 2⟩ 0 (1, 2, 3)
                [QTree.node ⟨0, 0, 1, 1⟩ 1 (4, 5, 6) []]).depth)
    ∧ get_leaf_nodes
          (QTree.node ⟨0, 0, 2, 2⟩ 0 (1, 2, 3)
            [QTree.node ⟨0, 0, 1, 1⟩ 1 (4, 5, 6) []]) (some 0)
        = [QTree.node ⟨0, 0, 2, 2⟩ 0 (1, 2, 3)
            [QTree.node ⟨0, 0, 1, 1⟩ 1 (4, 5, 6) []]] :=
  ⟨Or.inr ⟨0, rfl, le_refl 0⟩,
    C9_get_leaf_nodes.1 _ (some 0) (Or.inr ⟨0, rfl, le_refl 0⟩)⟩

/-! ### The split geometry (`Quad.split`) -/

/-- C8 (amended): on a box with positive width and height, the four children
of `Quad.split` exactly partition the parent, and their corners are integers
when the parent's corners are integers and both dimensions are even; the
shared midpoints are the exact (unrounded) values `l + (r - l) / 2` and
`t + (b - t) / 2`. -/
theorem C8_split_geometry (bx : Box) (hx : bx.l < bx.r) (hy : bx.t < bx.b) :
    SplitSpec bx := by
  obtain ⟨l, t, r, b⟩ := bx
  simp only [SplitSpec, pointIn, tlBox, trBox, blBox, brBox, midX, midY,
    compute_area, boxInt] at *
  refine ⟨?_, ?_, ?_, ?_, ?_, ?_, ?_, by ring, ?_⟩
  · intro x y
    constructor
    · rintro ⟨h1, h2, h3, h4⟩
      rcases lt_or_le x (l + (r - l) / 2) with hxm | hxm
      · rcases lt_or_le y (t + (b - t) / 2) with hym | hym
        · exact Or.inl ⟨h1, hxm, h3, hym⟩
        · exact Or.inr (Or.inr (Or.inl ⟨h1, hxm, hym, h4⟩))
      · rcases lt_or_le y (t + (b - t) / 2) with hym | hym
        · exact Or.inr (Or.inl ⟨hxm, h2, h3, hym⟩)
        · exact Or.inr (Or.inr (Or.inr ⟨hxm, h2, hym, h4⟩))
    · rintro (⟨h1, h2, h3, h4⟩ | ⟨h1, h2, h3, h4⟩ | ⟨h1, h2, h3, h4⟩ |
        ⟨h1, h2, h3, h4⟩) <;>
      exact ⟨by linarith, by linarith, by linarith, by linarith⟩
  · rintro x y ⟨⟨_, h2, _, _⟩, ⟨h5, _, _, _⟩⟩
    linarith
  · rintro x y ⟨⟨_, _, _, h4⟩, ⟨_, h6, _, _⟩⟩
    linarith
  · rintro x y ⟨⟨_, h2, _, h4⟩, ⟨h5, h6, _, _⟩⟩
    linarith
  · rintro x y ⟨⟨h1, _, _, h4⟩, ⟨_, _, h6, _⟩⟩
    linarith
  · rintro x y ⟨⟨_, _, _, h4⟩, ⟨_, h6, _, _⟩⟩
    linarith
  · rintro x y ⟨⟨_, h2, _, _⟩, ⟨h5, _, _, _⟩⟩
    linarith
  · rintro ⟨⟨zl, hl⟩, ⟨zt, ht⟩, ⟨zr, hr⟩, ⟨zb, hb⟩⟩ ⟨kx, hkx⟩ ⟨ky, hky⟩
    have hmx : l + (r - l) / 2 = ((zl + kx : ℤ) : ℚ) := by
      rw [hkx] at *
      push_cast
      linarith [hl]
    have hmy : t + (b - t) / 2 = ((zt + ky : ℤ) : ℚ) := by
      rw [hky] at *
      push_cast
      linarith [ht]
    exact ⟨⟨⟨zl, hl⟩, ⟨zt, ht⟩, ⟨zl + kx, hmx⟩, ⟨zt + ky, hmy⟩⟩,
      ⟨⟨zl + kx, hmx⟩, ⟨zt, ht⟩, ⟨zr, hr⟩, ⟨zt + ky, hmy⟩⟩,
      ⟨⟨zl, hl⟩, ⟨zt + ky, hmy⟩, ⟨zl + kx, hmx⟩, ⟨zb, hb⟩⟩,
      ⟨⟨zl + kx, hmx⟩, ⟨zt + ky, hmy⟩, ⟨zr, hr⟩, ⟨zb, hb⟩⟩⟩

/-- Counterexample to C8 as stated: splitting the integer box
`(0, 0, 5, 4)` (width 5, height 4, both `l < r` and `t < b`) produces a
top-right child whose left coordinate is the unrounded midpoint `5 / 2`,
which is not an integer pixel coordinate. -/
theorem C8_counterexample :
    ((0 : ℚ) < 5 ∧ (0 : ℚ) < 4)
    ∧ (trBox ⟨0, 0, 5, 4⟩).l = 5 / 2
    ∧ ¬ ∃ z : ℤ, (trBox ⟨0, 0, 5, 4⟩).l = (z : ℚ) := by
  have hval : (trBox ⟨0, 0, 5, 4⟩).l = 5 / 2 := by
    norm_num [trBox, midX]
  refine ⟨⟨by norm_num, by norm_num⟩, hval, ?_⟩
  rintro ⟨z, hz⟩
  rw [hval] at hz
  have h5 : (5 : ℤ) = 2 * z := by
    have h2 : (5 : ℚ) = 2 * (z : ℚ) := by linarith
    exact_mod_cast h2
  omega

/-- Witness for C8 (amended) at the box `(0, 0, 5, 4)`. -/
theorem C8_split_geometry_witness :
    ((Box.mk 0 0 5 4).l < (Box.mk 0 0 5 4).r
      ∧ (Box.mk 0 0 5 4).t < (Box.mk 0 0 5 4).b)
    ∧ SplitSpec ⟨0, 0, 5, 4⟩ :=
  ⟨⟨by norm_num, by norm_num⟩,
    C8_split_geometry ⟨0, 0, 5, 4⟩ (by norm_num) (by norm_num)⟩

/-! ### The renderer color substitution (`Model.render`) -/

/-- C7 (amended): in the render loop a leaf with a non-black color is painted
with its own color; a black leaf at position `i > 0` is painted with the
previous leaf's color; and a black FIRST leaf is painted with the color of
the LAST leaf in the sequence (Python's `nodes[i - 1]` with `i = 0` is
`nodes[-1]`), not with its own black. -/
theorem C7_render_colors (nodes : List QTree) (i : ℕ) (q : QTree)
    (hq : nodes.get? i = some q) :
    (q.color ≠ (0, 0, 0) → (render_colors nodes).get? i = some q.color)
    ∧ (q.color = (0, 0, 0) → 0 < i →
        (render_colors nodes).get? i = (nodes.get? (i - 1)).map QTree.color)
    ∧ (q.color = (0, 0, 0) → i = 0 →
        (render_colors nodes).get? i = nodes.getLast?.map QTree.color) := by
  have hlen : i < nodes.length := by
    rcases List.get?_eq_some.mp hq with ⟨hl, _⟩
    exact hl
  have hmap : (render_colors nodes).get? i
      = some (if q.color = (0, 0, 0) then prev_color nodes i else q.color) := by
    rw [render_colors, List.get?_eq_getElem?, List.getElem?_mapIdx,
      ← List.get?_eq_getElem?, hq]
    rfl
  refine ⟨?_, ?_, ?_⟩
  · intro h
    rw [hmap, if_neg h]
  · intro h hi
    rw [hmap, if_pos h, prev_color]
    have hne : ¬(i = 0) := by omega
    rw [if_neg hne]
    have h2 : i - 1 < nodes.length := by omega
    rw [List.get?_eq_get h2]
    rfl
  · intro h hi
    subst hi
    rw [hmap, if_pos h, prev_color, if_pos rfl]
    have hne : nodes ≠ [] := by
      intro h0
      rw [h0] at hq
      simp at hq
    rcases hg : nodes.getLast? with _ | ql
    · exact absurd (List.getLast?_eq_none_iff.mp hg) hne
    · rfl

/-- Counterexample to C7 as stated: a two-leaf sequence whose first leaf is
black and whose last is `(7, 8, 9)`; the first leaf is painted `(7, 8, 9)`
(the LAST leaf's color), not its own black as the claim states. -/
theorem C7_counterexample :
    render_colors
        [QTree.node ⟨0, 0, 1, 1⟩ 1 (0, 0, 0) [],
          QTree.node ⟨1, 0, 2, 1⟩ 1 (7, 8, 9) []]
      = [(7, 8, 9), (7, 8, 9)]
    ∧ render_colors
        [QTree.node ⟨0, 0, 1, 1⟩ 1 (0, 0, 0) [],
          QTree.node ⟨1, 0, 2, 1⟩ 1 (7, 8, 9) []]
      ≠ [(0, 0, 0), (7, 8, 9)] := by
  constructor
  · rfl
  · decide

/-- Witness for C7 (amended) at the first (black) leaf of the two-leaf
sequence. -/
theorem C7_render_colors_witness :
    ([QTree.node ⟨0, 0, 1, 1⟩ 1 (0, 0, 0) [],
        QTree.node ⟨1, 0, 2, 1⟩ 1 (7, 8, 9) []].get? 0
      = some (QTree.node ⟨0, 0, 1, 1⟩ 1 (0, 0, 0) []))
    ∧ (((QTree.node ⟨0, 0, 1, 1⟩ 1 (0, 0, 0) []).color ≠ (0, 0, 0) →
        (render_colors [QTree.node ⟨0, 0, 1, 1⟩ 1 (0, 0, 0) [],
          QTree.node ⟨1, 0, 2, 1⟩ 1 (7, 8, 9) []]).get? 0
          = some (QTree.node ⟨0, 0, 1, 1⟩ 1 (0, 0, 0) []).color)
    ∧ ((QTree.node ⟨0, 0, 1, 1⟩ 1 (0, 0, 0) []).color = (0, 0, 0) → 0 < 0 →
        (render_colors [QTree.node ⟨0, 0, 1, 1⟩ 1 (0, 0, 0) [],
          QTree.node ⟨1, 0, 2, 1⟩ 1 (7, 8, 9) []]).get? 0
          = ([QTree.node ⟨0, 0, 1, 1⟩ 1 (0, 0, 0) [],
              QTree.node ⟨1, 0, 2, 1⟩ 1 (7, 8, 9) []].get? (0 - 1)).map QTree.color)
    ∧ ((QTree.node ⟨0, 0, 1, 1⟩ 1 (0, 0, 0) []).color = (0, 0, 0) → 0 = 0 →
        (render_colors [QTree.node ⟨0, 0, 1, 1⟩ 1 (0, 0, 0) [],
          QTree.node ⟨1, 0, 2, 1⟩ 1 (7, 8, 9) []]).get? 0
          = [QTree.node ⟨0, 0, 1, 1⟩ 1 (0, 0, 0) [],
              QTree.node ⟨1, 0, 2, 1⟩ 1 (7, 8, 9) []].getLast?.map QTree.color)) :=
  ⟨rfl, C7_render_colors _ 0 _ rfl⟩

/-! ### Verification of the embedded `heapq` operations: contents -/

section HeapProofs

variable {α : Type} (lt : α → α → Prop) [DecidableRel lt]

theorem get?_getD {l : List α} {i : ℕ} (h : i < l.length) (d : α) :
    l.get? i = some (l.getD i d) := by
  rw [List.get?_eq_getElem?, List.getElem?_eq_getElem h, List.getD_eq_getElem l d h]

theorem get?_set_self {l : List α} {i : ℕ} (h : i < l.length) (a : α) :
    (l.set i a).get? i = some a := by
  rw [List.get?_set_eq]
  rw [List.get?_eq_getElem?, List.getElem?_eq_getElem h]
  rfl

theorem set_cons_perm :
    ∀ (l : List α) (i : ℕ) {b : α}, l.get? i = some b →
      ∀ (a : α), (b :: l.set i a).Perm (a :: l) := by
  intro l
  induction l with
  | nil => intro i b h a; simp at h
  | cons c t ih =>
    intro i b h a
    cases i with
    | zero =>
      rw [List.get?_cons_zero] at h
      injection h with h
      subst h
      rw [List.set_cons_zero]
      exact List.Perm.swap a c t
    | succ i =>
      rw [List.get?_cons_succ] at h
      rw [List.set_cons_succ]
      exact (List.Perm.swap c b _).trans
        ((List.Perm.cons c (ih i h a)).trans (List.Perm.swap a c t))

theorem siftdownLoop_perm (startpos : ℕ) (ni : α) :
    ∀ (pos : ℕ) (heap : List α) (x : α), heap.get? pos = some x →
      ((x :: siftdownLoop lt startpos ni pos heap).Perm (ni :: heap)) := by
  intro pos
  induction pos using Nat.strong_induction_on with
  | _ pos ih =>
    intro heap x hx
    have hrange : pos < heap.length := by
      rcases List.get?_eq_some.mp hx with ⟨h, _⟩
      exact h
    rw [siftdownLoop]
    have hd : (pos - 1) / 2 ≤ pos - 1 := Nat.div_le_self _ _
    split
    next h =>
      split
      next hlt =>
        have hpplt : (pos - 1) / 2 < pos := by omega
        have hpprange : (pos - 1) / 2 < heap.length := by omega
        have hp : heap.get? ((pos - 1) / 2) = some (heap.getD ((pos - 1) / 2) ni) :=
          get?_getD hpprange ni
        have hp' : (heap.set pos (heap.getD ((pos - 1) / 2) ni)).get? ((pos - 1) / 2)
            = some (heap.getD ((pos - 1) / 2) ni) := by
          rw [List.get?_set_ne _ _ (show pos ≠ (pos - 1) / 2 by omega)]
          exact hp
        have h1 := ih _ hpplt (heap.set pos (heap.getD ((pos - 1) / 2) ni)) _ hp'
        have h2 := set_cons_perm heap pos hx (heap.getD ((pos - 1) / 2) ni)
        set P := heap.getD ((pos - 1) / 2) ni with hP
        set res := siftdownLoop lt startpos ni ((pos - 1) / 2) (heap.set pos P)
          with hres
        have c2 : (P :: x :: res).Perm (P :: ni :: heap) :=
          (List.Perm.swap x P res).trans ((List.Perm.cons x h1).trans
            ((List.Perm.swap ni x _).trans ((List.Perm.cons ni h2).trans
              (List.Perm.swap P ni heap))))
        exact List.Perm.cons_inv c2
      next hlt =>
        exact set_cons_perm heap pos hx ni
    next h =>
      exact set_cons_perm heap pos hx ni

theorem siftup_hole_perm (startpos : ℕ) (ni : α) (fuel : ℕ)
    (ih : ∀ (pos : ℕ) (heap : List α) (x : α), heap.length - pos ≤ fuel →
      heap.get? pos = some x →
      ((x :: siftupLoop lt heap.length startpos ni pos heap).Perm (ni :: heap)))
    (pos cp : ℕ) (heap : List α) (x : α) (hx : heap.get? pos = some x)
    (hcpr : cp < heap.length) (hgt : pos < cp) (hfuel : heap.length - cp ≤ fuel) :
    ((x :: siftupLoop lt heap.length startpos ni cp
        (heap.set pos (heap.getD cp ni))).Perm (ni :: heap)) := by
  set C := heap.getD cp ni with hC
  have hpC : heap.get? cp = some C := get?_getD hcpr ni
  have hpC' : (heap.set pos C).get? cp = some C := by
    rw [List.get?_set_ne _ _ (show pos ≠ cp by omega)]
    exact hpC
  have hlen : (heap.set pos C).length = heap.length := by simp
  have h1 : ((C :: siftupLoop lt heap.length startpos ni cp (heap.set pos C)).Perm
      (ni :: (heap.set pos C))) := by
    have := ih cp (heap.set pos C) C (by omega) hpC'
    rw [hlen] at this
    exact this
  have h2 := set_cons_perm heap pos hx C
  set res := siftupLoop lt heap.length startpos ni cp (heap.set pos C) with hres
  have c2 : (C :: x :: res).Perm (C :: ni :: heap) :=
    (List.Perm.swap x C res).trans ((List.Perm.cons x h1).trans
      ((List.Perm.swap ni x _).trans ((List.Perm.cons ni h2).trans
        (List.Perm.swap C ni heap))))
  exact List.Perm.cons_inv c2

theorem siftupLoop_perm (startpos : ℕ) (ni : α) :
    ∀ (fuel pos : ℕ) (heap : List α) (x : α), heap.length - pos ≤ fuel →
      heap.get? pos = some x →
      ((x :: siftupLoop lt heap.length startpos ni pos heap).Perm (ni :: heap)) := by
  intro fuel
  induction fuel with
  | zero =>
    intro pos heap x h hx
    have hrange : pos < heap.length := by
      rcases List.get?_eq_some.mp hx with ⟨hr, _⟩
      exact hr
    omega
  | succ fuel ih =>
    intro pos heap x h hx
    have hrange : pos < heap.length := by
      rcases List.get?_eq_some.mp hx with ⟨hr, _⟩
      exact hr
    rw [siftupLoop]
    split
    next hc =>
      dsimp only
      split
      next hsel =>
        exact siftup_hole_perm lt startpos ni fuel ih pos _ heap x hx hsel.1
          (by omega) (by omega)
      next hsel =>
        exact siftup_hole_perm lt startpos ni fuel ih pos _ heap x hx hc
          (by omega) (by omega)
    next hc =>
      have hset : (heap.set pos ni).get? pos = some ni :=
        get?_set_self (by omega) ni
      have h1 := siftdownLoop_perm lt startpos ni pos (heap.set pos ni) ni hset
      have h2 : (siftdownLoop lt startpos ni pos (heap.set pos ni)).Perm
          (heap.set pos ni) := List.Perm.cons_inv h1
      have h3 := set_cons_perm heap pos hx ni
      exact (List.Perm.cons x h2).trans h3

theorem heappush_perm (l : List α) (item : α) :
    (heappush lt l item).Perm (item :: l) := by
  have goal_eq : heappush lt l item
      = siftdownLoop lt 0 item l.length (l ++ [item]) := by
    rw [heappush, pysiftdown, List.get?_concat_length]
  rw [goal_eq]
  have hx : (l ++ [item]).get? l.length = some item := List.get?_concat_length l item
  have h1 := siftdownLoop_perm lt 0 item l.length (l ++ [item]) item hx
  exact (List.Perm.cons_inv h1).trans (List.perm_append_singleton item l)

theorem heappop_perm {l : List α} {x : α} {rest : List α}
    (h : heappop lt l = some (x, rest)) : l.Perm (x :: rest) := by
  rw [heappop] at h
  rcases hl : l.getLast? with _ | last
  · rw [hl] at h
    exact absurd h (by simp)
  · rw [hl] at h
    have hne : l ≠ [] := by
      intro h0
      rw [h0] at hl
      simp at hl
    have hlast : l.getLast hne = last := by
      have := List.getLast?_eq_getLast l hne
      rw [hl] at this
      injection this with this
      exact this.symm
    have hdec : l.dropLast ++ [last] = l := by
      rw [← hlast]
      exact List.dropLast_concat_getLast hne
    rcases hd : l.dropLast with _ | ⟨y, ys⟩
    · rw [hd] at h
      have hx2 : last = x ∧ ([] : List α) = rest := by
        simpa using h
      obtain ⟨rfl, hrest⟩ := hx2
      have hl1 : l = [last] := by
        rw [← hdec, hd]
        rfl
      rw [hl1, ← hrest]
    · rw [hd] at h
      have hx2 : y = x ∧ pysiftup lt (last :: ys) 0 = rest := by
        simpa using h
      obtain ⟨rfl, hrest⟩ := hx2
      have hrest2 : siftupLoop lt (last :: ys).length 0 last 0 (last :: ys)
          = rest := by
        rw [pysiftup] at hrest
        simpa using hrest
      have h0 : (last :: ys).get? 0 = some last := rfl
      have hperm := siftupLoop_perm lt 0 last ((last :: ys).length) 0
        (last :: ys) last (by omega) h0
      rw [hrest2] at hperm
      have h2 : rest.Perm (last :: ys) := List.Perm.cons_inv hperm
      have hl2 : l = (y :: ys) ++ [last] := by
        rw [← hdec, hd]
      rw [hl2]
      have p1 : (ys ++ [last]).Perm (last :: ys) := List.perm_append_singleton last ys
      exact List.Perm.cons y (p1.trans h2.symm)

end HeapProofs

/-! ### Verification of the embedded `heapq` operations: the heap invariant -/

section HeapInvProofs

variable {α : Type} (lt : α → α → Prop) [DecidableRel lt]

theorem heapChild_lt {i j : ℕ} (h : heapChild i j) : i < j := by
  rcases h with h | h <;> omega

theorem heapChild_parent {i j : ℕ} (h : heapChild i j) : i = (j - 1) / 2 := by
  rcases h with h | h <;> omega

theorem child_of_parent {j : ℕ} (h : 0 < j) : heapChild ((j - 1) / 2) j := by
  rw [heapChild]
  omega

theorem siftdownLoop_inv (irr : ∀ a : α, ¬lt a a)
    (tra : ∀ {a b c : α}, lt a b → lt b c → lt a c)
    (ntr : ∀ {a b c : α}, ¬lt b a → ¬lt c b → ¬lt c a)
    (ni : α) :
    ∀ (pos : ℕ) (heap : List α),
      pos < heap.length →
      (∀ i j a b, heapChild i j → j ≠ pos → heap.get? i = some a →
        heap.get? j = some b → ¬lt b a) →
      (0 < pos → ∀ j b p, heapChild pos j → heap.get? j = some b →
        heap.get? ((pos - 1) / 2) = some p → ¬lt b p) →
      (∀ j b, heapChild pos j → heap.get? j = some b → ¬lt b ni) →
      HeapInv lt (siftdownLoop lt 0 ni pos heap) := by
  intro pos
  induction pos using Nat.strong_induction_on with
  | _ pos ihp =>
    intro heap hrange hA hBgp hBnew
    rw [siftdownLoop]
    have hd2 : (pos - 1) / 2 ≤ pos - 1 := Nat.div_le_self _ _
    split
    next h =>
      set pp := (pos - 1) / 2 with hpp
      set P := heap.getD pp ni with hP
      have hppr : pp < heap.length := by omega
      have hplt : pp < pos := by omega
      have hpP : heap.get? pp = some P := get?_getD hppr ni
      split
      next hlt =>
        refine ihp pp hplt (heap.set pos P) (by simpa using hppr) ?_ ?_ ?_
        · intro i j a b hij hjne hi hj
          by_cases hjpos : pos = j
          · subst hjpos
            have hipp : i = pp := by
              have := heapChild_parent hij
              omega
            subst hipp
            rw [List.get?_set_ne _ _ (show pos ≠ pp by omega)] at hi
            rw [hpP] at hi
            injection hi with hi
            rw [get?_set_self hrange] at hj
            injection hj with hj
            rw [← hi, ← hj]
            exact irr P
          · by_cases hipos : pos = i
            · subst hipos
              rw [get?_set_self hrange] at hi
              injection hi with hi
              rw [List.get?_set_ne _ _ (show pos ≠ j by omega)] at hj
              rw [← hi]
              exact hBgp (by have := heapChild_lt hij; omega) j b P hij hj hpP
            · rw [List.get?_set_ne _ _ hipos] at hi
              rw [List.get?_set_ne _ _ hjpos] at hj
              exact hA i j a b hij (fun he => hjpos he.symm) hi hj
        · intro hpp0 j b p hij hj hp
          have hgplt : (pp - 1) / 2 < pp := by
            have := Nat.div_le_self (pp - 1) 2
            omega
          rw [List.get?_set_ne _ _ (show pos ≠ (pp - 1) / 2 by omega)] at hp
          have hchildpp : heapChild ((pp - 1) / 2) pp := child_of_parent hpp0
          by_cases hjpos : pos = j
          · subst hjpos
            rw [get?_set_self hrange] at hj
            injection hj with hj
            rw [← hj]
            exact hA _ pp p P hchildpp (by omega) hp hpP
          · rw [List.get?_set_ne _ _ hjpos] at hj
            have h1 : ¬lt b P := hA pp j P b hij (fun he => hjpos he.symm) hpP hj
            have h2 : ¬lt P p := hA _ pp p P hchildpp (by omega) hp hpP
            exact ntr h2 h1
        · intro j b hij hj
          by_cases hjpos : pos = j
          · subst hjpos
            rw [get?_set_self hrange] at hj
            injection hj with hj
            rw [← hj]
            intro hPl
            exact irr ni (tra hlt hPl)
          · rw [List.get?_set_ne _ _ hjpos] at hj
            have h1 : ¬lt b P := hA pp j P b hij (fun he => hjpos he.symm) hpP hj
            intro hbni
            exact h1 (tra hbni hlt)
      next hlt =>
        intro i j a b hij hi hj
        by_cases hjpos : pos = j
        · subst hjpos
          have hipp : i = pp := by
            have := heapChild_parent hij
            omega
          subst hipp
          rw [List.get?_set_ne _ _ (show pos ≠ pp by omega)] at hi
          rw [hpP] at hi
          injection hi with hi
          rw [get?_set_self hrange] at hj
          injection hj with hj
          rw [← hi, ← hj]
          exact hlt
        · by_cases hipos : pos = i
          · subst hipos
            rw [get?_set_self hrange] at hi
            injection hi with hi
            rw [List.get?_set_ne _ _ hjpos] at hj
            rw [← hi]
            exact hBnew j b hij hj
          · rw [List.get?_set_ne _ _ hipos] at hi
            rw [List.get?_set_ne _ _ hjpos] at hj
            exact hA i j a b hij (fun he => hjpos he.symm) hi hj
    next h =>
      have hpos0 : pos = 0 := by omega
      subst hpos0
      intro i j a b hij hi hj
      have hj0 : j ≠ 0 := by
        have := heapChild_lt hij
        omega
      by_cases hipos : (0 : ℕ) = i
      · subst hipos
        rw [get?_set_self hrange] at hi
        injection hi with hi
        rw [List.get?_set_ne _ _ (show (0 : ℕ) ≠ j from fun he => hj0 he.symm)] at hj
        rw [← hi]
        exact hBnew j b hij hj
      · rw [List.get?_set_ne _ _ hipos] at hi
        rw [List.get?_set_ne _ _ (show (0 : ℕ) ≠ j from fun he => hj0 he.symm)] at hj
        exact hA i j a b hij hj0 hi hj

theorem siftup_hole_inv (ni : α) (fuel : ℕ)
    (ih : ∀ (pos : ℕ) (heap : List α),
      pos < heap.length →
      heap.length - pos ≤ fuel →
      (∀ i j a b, heapChild i j → j ≠ pos → i ≠ pos → heap.get? i = some a →
        heap.get? j = some b → ¬lt b a) →
      (0 < pos → ∀ j b p, heapChild pos j → heap.get? j = some b →
        heap.get? ((pos - 1) / 2) = some p → ¬lt b p) →
      HeapInv lt (siftupLoop lt heap.length 0 ni pos heap))
    (pos cp : ℕ) (heap : List α)
    (hrange : pos < heap.length)
    (hcpr : cp < heap.length)
    (hcpchild : heapChild pos cp)
    (hfuel : heap.length - cp ≤ fuel)
    (hA : ∀ i j a b, heapChild i j → j ≠ pos → i ≠ pos → heap.get? i = some a →
      heap.get? j = some b → ¬lt b a)
    (hBp : 0 < pos → ∀ j b p, heapChild pos j → heap.get? j = some b →
      heap.get? ((pos - 1) / 2) = some p → ¬lt b p)
    (hsib : ∀ s b, heapChild pos s → s ≠ cp → heap.get? s = some b →
      ¬lt b (heap.getD cp ni)) :
    HeapInv lt (siftupLoop lt heap.length 0 ni cp
      (heap.set pos (heap.getD cp ni))) := by
  set C := heap.getD cp ni with hC
  have hcpgt : pos < cp := heapChild_lt hcpchild
  have hpC : heap.get? cp = some C := get?_getD hcpr ni
  have hlen : heap.length = (heap.set pos C).length := by simp
  rw [hlen]
  refine ih cp (heap.set pos C) (by simpa using hcpr) (by simpa using hfuel)
    ?_ ?_
  · intro i j a b hij hjne hine hi hj
    by_cases hjpos : pos = j
    · subst hjpos
      have hipp : i = (pos - 1) / 2 := heapChild_parent hij
      have hilt : i < pos := heapChild_lt hij
      rw [List.get?_set_ne _ _ (show pos ≠ i by omega)] at hi
      rw [get?_set_self hrange] at hj
      injection hj with hj
      rw [← hj]
      rw [hipp] at hi
      exact hBp (by omega) cp C a hcpchild hpC hi
    · by_cases hipos : pos = i
      · subst hipos
        rw [get?_set_self hrange] at hi
        injection hi with hi
        rw [List.get?_set_ne _ _ hjpos] at hj
        rw [← hi]
        exact hsib j b hij hjne hj
      · rw [List.get?_set_ne _ _ hipos] at hi
        rw [List.get?_set_ne _ _ hjpos] at hj
        exact hA i j a b hij (fun he => hjpos he.symm) (fun he => hipos he.symm) hi hj
  · intro hcp0 j b p hij hj hp
    have hjgt : cp < j := heapChild_lt hij
    have hparent : pos = (cp - 1) / 2 := heapChild_parent hcpchild
    rw [← hparent] at hp
    rw [get?_set_self hrange] at hp
    injection hp with hp
    rw [List.get?_set_ne _ _ (show pos ≠ j by omega)] at hj
    rw [← hp]
    exact hA cp j C b hij (by omega) (by omega) hpC hj

theorem siftupLoop_inv (irr : ∀ a : α, ¬lt a a)
    (tra : ∀ {a b c : α}, lt a b → lt b c → lt a c)
    (ntr : ∀ {a b c : α}, ¬lt b a → ¬lt c b → ¬lt c a)
    (ni : α) :
    ∀ (fuel pos : ℕ) (heap : List α),
      pos < heap.length →
      heap.length - pos ≤ fuel →
      (∀ i j a b, heapChild i j → j ≠ pos → i ≠ pos → heap.get? i = some a →
        heap.get? j = some b → ¬lt b a) →
      (0 < pos → ∀ j b p, heapChild pos j → heap.get? j = some b →
        heap.get? ((pos - 1) / 2) = some p → ¬lt b p) →
      HeapInv lt (siftupLoop lt heap.length 0 ni pos heap) := by
  intro fuel
  induction fuel with
  | zero =>
    intro pos heap hrange hfuel hA hBp
    omega
  | succ fuel ih =>
    intro pos heap hrange hfuel hA hBp
    rw [siftupLoop]
    split
    next hc =>
      dsimp only
      split
      next hsel =>
        refine siftup_hole_inv lt ni fuel ih pos _ heap hrange hsel.1
          (Or.inr rfl) (by omega) hA hBp ?_
        intro s b hs hsne hsb
        have hschild : s = 2 * pos + 1 := by
          rcases hs with h1 | h1
          · exact h1
          · exact absurd h1 hsne
        subst hschild
        have hbval : b = heap.getD (2 * pos + 1) ni := by
          have := get?_getD hc ni
          rw [this] at hsb
          injection hsb with hsb
          exact hsb.symm
        rw [hbval]
        exact hsel.2
      next hsel =>
        refine siftup_hole_inv lt ni fuel ih pos _ heap hrange hc
          (Or.inl rfl) (by omega) hA hBp ?_
        intro s b hs hsne hsb
        have hschild : s = 2 * pos + 2 := by
          rcases hs with h1 | h1
          · exact absurd h1 hsne
          · exact h1
        subst hschild
        have hsr : 2 * pos + 1 + 1 < heap.length := by
          rcases List.get?_eq_some.mp hsb with ⟨hr, _⟩
          omega
        have hlt1 : lt (heap.getD (2 * pos + 1) ni) (heap.getD (2 * pos + 1 + 1) ni) := by
          by_contra hcon
          exact hsel ⟨hsr, hcon⟩
        have hbval : b = heap.getD (2 * pos + 1 + 1) ni := by
          have := get?_getD hsr ni
          have h2 : heap.get? (2 * pos + 2) = some (heap.getD (2 * pos + 1 + 1) ni) := this
          rw [h2] at hsb
          injection hsb with hsb
          exact hsb.symm
        rw [hbval]
        intro hcon2
        exact irr _ (tra hlt1 hcon2)
    next hc =>
      refine siftdownLoop_inv lt irr tra ntr ni pos (heap.set pos ni)
        (by simpa using hrange) ?_ ?_ ?_
      · intro i j a b hij hjne hi hj
        by_cases hipos : pos = i
        · subst hipos
          rcases List.get?_eq_some.mp hj with ⟨hr, _⟩
          rcases hij with h1 | h1 <;> simp at hr <;> omega
        · rw [List.get?_set_ne _ _ hipos] at hi
          rw [List.get?_set_ne _ _ (show pos ≠ j from fun he => hjne he.symm)] at hj
          exact hA i j a b hij hjne (fun he => hipos he.symm) hi hj
      · intro hpos0 j b p hij hj hp
        rcases List.get?_eq_some.mp hj with ⟨hr, _⟩
        have := heapChild_lt hij
        rcases hij with h1 | h1 <;> simp at hr <;> omega
      · intro j b hij hj
        rcases List.get?_eq_some.mp hj with ⟨hr, _⟩
        rcases hij with h1 | h1 <;> simp at hr <;> omega

theorem heappush_inv (irr : ∀ a : α, ¬lt a a)
    (tra : ∀ {a b c : α}, lt a b → lt b c → lt a c)
    (ntr : ∀ {a b c : α}, ¬lt b a → ¬lt c b → ¬lt c a)
    {l : List α} (hInv : HeapInv lt l) (item : α) :
    HeapInv lt (heappush lt l item) := by
  have goal_eq : heappush lt l item
      = siftdownLoop lt 0 item l.length (l ++ [item]) := by
    rw [heappush, pysiftdown, List.get?_concat_length]
  rw [goal_eq]
  refine siftdownLoop_inv lt irr tra ntr item l.length (l ++ [item])
    (by simp) ?_ ?_ ?_
  · intro i j a b hij hjne hi hj
    have hjr : j < l.length + 1 := by
      rcases List.get?_eq_some.mp hj with ⟨hr, _⟩
      simpa using hr
    have hjl : j < l.length := by omega
    have hil : i < l.length := by
      have := heapChild_lt hij
      omega
    rw [List.get?_append hil] at hi
    rw [List.get?_append hjl] at hj
    exact hInv i j a b hij hi hj
  · intro hpos j b p hij hj hp
    rcases List.get?_eq_some.mp hj with ⟨hr, _⟩
    have := heapChild_lt hij
    rcases hij with h1 | h1 <;> simp at hr <;> omega
  · intro j b hij hj
    rcases List.get?_eq_some.mp hj with ⟨hr, _⟩
    rcases hij with h1 | h1 <;> simp at hr <;> omega

theorem heappop_inv (irr : ∀ a : α, ¬lt a a)
    (tra : ∀ {a b c : α}, lt a b → lt b c → lt a c)
    (ntr : ∀ {a b c : α}, ¬lt b a → ¬lt c b → ¬lt c a)
    {l : List α} {x : α} {rest : List α}
    (hInv : HeapInv lt l) (h : heappop lt l = some (x, rest)) :
    HeapInv lt rest := by
  rw [heappop] at h
  rcases hl : l.getLast? with _ | last
  · rw [hl] at h
    exact absurd h (by simp)
  · rw [hl] at h
    have hne : l ≠ [] := by
      intro h0
      rw [h0] at hl
      simp at hl
    have hlast : l.getLast hne = last := by
      have := List.getLast?_eq_getLast l hne
      rw [hl] at this
      injection this with this
      exact this.symm
    have hdec : l.dropLast ++ [last] = l := by
      rw [← hlast]
      exact List.dropLast_concat_getLast hne
    rcases hd : l.dropLast with _ | ⟨y, ys⟩
    · rw [hd] at h
      have hx2 : last = x ∧ ([] : List α) = rest := by
        simpa using h
      rw [← hx2.2]
      intro i j a b hij hi hj
      simp at hj
    · rw [hd] at h
      have hx2 : y = x ∧ pysiftup lt (last :: ys) 0 = rest := by
        simpa using h
      obtain ⟨rfl, hrest⟩ := hx2
      have hrest2 : siftupLoop lt (last :: ys).length 0 last 0 (last :: ys)
          = rest := by
        rw [pysiftup] at hrest
        simpa using hrest
      have hl2 : l = (y :: ys) ++ [last] := by
        rw [← hdec, hd]
      rw [← hrest2]
      refine siftupLoop_inv lt irr tra ntr last ((last :: ys).length) 0
        (last :: ys) (by simp) (by omega) ?_ ?_
      · intro i j a b hij hjne hine hi hj
        have hir : i < ys.length + 1 := by
          rcases List.get?_eq_some.mp hi with ⟨hr, _⟩
          simpa using hr
        have hjr : j < ys.length + 1 := by
          rcases List.get?_eq_some.mp hj with ⟨hr, _⟩
          simpa using hr
        have hkey : ∀ k, 1 ≤ k → k < ys.length + 1 →
            (last :: ys).get? k = l.get? k := by
          intro k hk1 hk2
          rw [hl2]
          rcases k with _ | k
          · omega
          · rw [List.get?_cons_succ]
            rw [List.get?_append (by simpa using hk2)]
            rw [List.get?_cons_succ]
        rw [hkey i (by omega) hir] at hi
        rw [hkey j (by omega) hjr] at hj
        exact hInv i j a b hij hi hj
      · intro h0
        omega

theorem heapInv_root_min (irr : ∀ a : α, ¬lt a a)
    (tra : ∀ {a b c : α}, lt a b → lt b c → lt a c)
    (ntr : ∀ {a b c : α}, ¬lt b a → ¬lt c b → ¬lt c a)
    {l : List α} (hInv : HeapInv lt l) {m : α}
    (hroot : l.get? 0 = some m) : ∀ j y, l.get? j = some y → ¬lt y m := by
  intro j
  induction j using Nat.strong_induction_on with
  | _ j ih =>
    intro y hy
    rcases Nat.eq_zero_or_pos j with rfl | hj
    · rw [hroot] at hy
      injection hy with hy
      rw [← hy]
      exact irr m
    · have hchild : heapChild ((j - 1) / 2) j := child_of_parent hj
      have hjr : j < l.length := by
        rcases List.get?_eq_some.mp hy with ⟨hr, _⟩
        exact hr
      have hpr : (j - 1) / 2 < l.length := by
        have := Nat.div_le_self (j - 1) 2
        omega
      obtain ⟨p, hp⟩ : ∃ p, l.get? ((j - 1) / 2) = some p :=
        ⟨l.getD ((j - 1) / 2) y, get?_getD hpr y⟩
      have h1 : ¬lt y p := hInv _ j p y hchild hp hy
      have h2 : ¬lt p m := ih ((j - 1) / 2) (by
        have := Nat.div_le_self (j - 1) 2
        omega) p hp
      exact ntr h2 h1

theorem heappop_min (irr : ∀ a : α, ¬lt a a)
    (tra : ∀ {a b c : α}, lt a b → lt b c → lt a c)
    (ntr : ∀ {a b c : α}, ¬lt b a → ¬lt c b → ¬lt c a)
    {l : List α} {x : α} {rest : List α}
    (hInv : HeapInv lt l) (h : heappop lt l = some (x, rest)) :
    ∀ y ∈ l, ¬lt y x := by
  rw [heappop] at h
  rcases hl : l.getLast? with _ | last
  · rw [hl] at h
    exact absurd h (by simp)
  · rw [hl] at h
    have hne : l ≠ [] := by
      intro h0
      rw [h0] at hl
      simp at hl
    have hlast : l.getLast hne = last := by
      have := List.getLast?_eq_getLast l hne
      rw [hl] at this
      injection this with this
      exact this.symm
    have hdec : l.dropLast ++ [last] = l := by
      rw [← hlast]
      exact List.dropLast_concat_getLast hne
    rcases hd : l.dropLast with _ | ⟨y0, ys⟩
    · rw [hd] at h
      have hx2 : last = x ∧ ([] : List α) = rest := by
        simpa using h
      have hl1 : l = [last] := by
        rw [← hdec, hd]
        rfl
      intro y hy
      rw [hl1] at hy
      simp at hy
      rw [hy, ← hx2.1]
      exact irr last
    · rw [hd] at h
      have hx2 : y0 = x ∧ pysiftup lt (last :: ys) 0 = rest := by
        simpa using h
      obtain ⟨rfl, _⟩ := hx2
      have hl2 : l = (y0 :: ys) ++ [last] := by
        rw [← hdec, hd]
      have hroot : l.get? 0 = some y0 := by
        rw [hl2]
        rfl
      intro y hy
      rcases List.mem_iff_get?.mp hy with ⟨j, hj⟩
      exact heapInv_root_min lt irr tra ntr hInv hroot j y hj

end HeapInvProofs

/-! ### The entry order is a strict weak order -/

theorem entryLt_iff_key (x y : Entry) : entryLt x y ↔ entryKey x < entryKey y := by
  unfold entryLt entryKey
  rw [Prod.Lex.lt_iff, Prod.Lex.lt_iff]

theorem entryLt_irr : ∀ e : Entry, ¬entryLt e e := by
  intro e h
  rw [entryLt_iff_key] at h
  exact lt_irrefl _ h

theorem entryLt_trans : ∀ {a b c : Entry}, entryLt a b → entryLt b c → entryLt a c := by
  intro a b c h1 h2
  rw [entryLt_iff_key] at h1 h2 ⊢
  exact lt_trans h1 h2

theorem entryLt_ntr :
    ∀ {a b c : Entry}, ¬entryLt b a → ¬entryLt c b → ¬entryLt c a := by
  intro a b c h1 h2
  rw [entryLt_iff_key] at h1 h2 ⊢
  exact not_lt.mpr (le_trans (not_lt.mp h1) (not_lt.mp h2))

/-! ### The model state machine -/

theorem heappush_nil {α : Type} (lt : α → α → Prop) [DecidableRel lt] (x : α) :
    heappush lt [] x = [x] := by
  rw [heappush, pysiftdown]
  simp only [List.nil_append, List.length_nil, List.get?_cons_zero]
  rw [siftdownLoop]
  simp

theorem heappop_singleton {α : Type} (lt : α → α → Prop) [DecidableRel lt]
    (x : α) : heappop lt [x] = some (x, []) := by
  rw [heappop]
  rfl

theorem foldl_pushChild_perm (cs : List Quad) :
    ∀ init : MState,
      ((cs.foldl pushChild init).heap).Perm (cs.map mkEntry ++ init.heap) := by
  induction cs with
  | nil => intro init; simp
  | cons c cs' ih =>
    intro init
    rw [List.foldl_cons]
    refine (ih (pushChild init c)).trans ?_
    have h1 : (pushChild init c).heap.Perm (mkEntry c :: init.heap) :=
      heappush_perm entryLt init.heap (mkEntry c)
    have h2 := List.Perm.append_left (cs'.map mkEntry) h1
    refine h2.trans ?_
    simp only [List.map_cons, List.cons_append]
    exact List.perm_middle

theorem foldl_pushChild_error (cs : List Quad) :
    ∀ init : MState,
      (cs.foldl pushChild init).error_sum
        = init.error_sum + (cs.map fun c => c.error * (c.area : ℝ)).sum := by
  induction cs with
  | nil => intro init; simp
  | cons c cs' ih =>
    intro init
    rw [List.foldl_cons, ih]
    simp [pushChild]
    ring

theorem foldl_pushChild_inv (cs : List Quad) :
    ∀ init : MState, HeapInv entryLt init.heap →
      HeapInv entryLt (cs.foldl pushChild init).heap := by
  induction cs with
  | nil => intro init h; exact h
  | cons c cs' ih =>
    intro init h
    rw [List.foldl_cons]
    exact ih _ (heappush_inv entryLt entryLt_irr entryLt_trans entryLt_ntr h _)

theorem model_split_spec {O : ImageOracle} {s s' : MState}
    (h : model_split O s = some s') :
    ∃ e rest, heappop entryLt s.heap = some (e, rest)
      ∧ s'.heap.Perm
          ((((splitBoxList e.2.2.box).map fun bx =>
            mkQuad O bx (e.2.2.depth + 1)).map mkEntry) ++ rest)
      ∧ s'.error_sum = s.error_sum - e.2.2.error * (e.2.2.area : ℝ)
          + (((splitBoxList e.2.2.box).map fun bx =>
              mkQuad O bx (e.2.2.depth + 1)).map fun c =>
                c.error * (c.area : ℝ)).sum
      ∧ (HeapInv entryLt s.heap → HeapInv entryLt s'.heap) := by
  rw [model_split] at h
  rcases hp : heappop entryLt s.heap with _ | ⟨e, rest⟩
  · rw [hp] at h
    simp at h
  · rw [hp] at h
    simp only [Option.some.injEq] at h
    refine ⟨e, rest, rfl, ?_, ?_, ?_⟩
    · rw [← h]
      exact foldl_pushChild_perm _ _
    · rw [← h]
      rw [foldl_pushChild_error]
    · intro hInv
      rw [← h]
      refine foldl_pushChild_inv _ _ ?_
      exact heappop_inv entryLt entryLt_irr entryLt_trans entryLt_ntr hInv hp

theorem validBox_split {W H : ℚ} {bx : Box} (hv : ValidBox W H bx) :
    ∀ cb ∈ splitBoxList bx, ValidBox W H cb := by
  obtain ⟨h1, h2, h3, h4, h5, h6⟩ := hv
  intro cb hcb
  have hmx1 : bx.l ≤ midX bx := by
    rw [midX]; linarith
  have hmx2 : midX bx ≤ bx.r := by
    rw [midX]; linarith
  have hmy1 : bx.t ≤ midY bx := by
    rw [midY]; linarith
  have hmy2 : midY bx ≤ bx.b := by
    rw [midY]; linarith
  simp only [splitBoxList, List.mem_cons, List.not_mem_nil, or_false] at hcb
  rcases hcb with rfl | rfl | rfl | rfl <;>
    exact ⟨by simp [tlBox, trBox, blBox, brBox]; linarith,
      by simp [tlBox, trBox, blBox, brBox]; linarith,
      by simp [tlBox, trBox, blBox, brBox]; linarith,
      by simp [tlBox, trBox, blBox, brBox]; linarith,
      by simp [tlBox, trBox, blBox, brBox]; linarith,
      by simp [tlBox, trBox, blBox, brBox]; linarith⟩

theorem posDims_split {bx : Box} (hp : PosDims bx) :
    ∀ cb ∈ splitBoxList bx, PosDims cb := by
  obtain ⟨h1, h2⟩ := hp
  intro cb hcb
  have hmx1 : bx.l < midX bx := by
    rw [midX]; linarith
  have hmx2 : midX bx < bx.r := by
    rw [midX]; linarith
  have hmy1 : bx.t < midY bx := by
    rw [midY]; linarith
  have hmy2 : midY bx < bx.b := by
    rw [midY]; linarith
  simp only [splitBoxList, List.mem_cons, List.not_mem_nil, or_false] at hcb
  rcases hcb with rfl | rfl | rfl | rfl <;>
    exact ⟨by simp [tlBox, trBox, blBox, brBox]; linarith,
      by simp [tlBox, trBox, blBox, brBox]; linarith⟩

theorem mkQuad_ok {O : ImageOracle} {bx : Box} (d : ℕ)
    (hv : ValidBox (O.width : ℚ) (O.height : ℚ) bx) (hp : PosDims bx) :
    QuadOK O (mkQuad O bx d) := by
  exact ⟨hv, hp, rfl, rfl, rfl, rfl⟩

theorem split_area_sum (bx : Box) :
    compute_area (tlBox bx) + compute_area (trBox bx) + compute_area (blBox bx)
      + compute_area (brBox bx) = compute_area bx := by
  simp only [compute_area, tlBox, trBox, blBox, brBox, midX, midY]
  ring

theorem fresh_minv (O : ImageOracle) : MInv O (freshModel O) := by
  have hbx : ValidBox (O.width : ℚ) (O.height : ℚ)
      ⟨0, 0, (O.width : ℚ), (O.height : ℚ)⟩ := by
    refine ⟨le_refl 0, ?_, le_refl _, le_refl 0, ?_, le_refl _⟩
    · show (0 : ℚ) ≤ (O.width : ℚ)
      exact_mod_cast Nat.zero_le O.width
    · show (0 : ℚ) ≤ (O.height : ℚ)
      exact_mod_cast Nat.zero_le O.height
  have hpd : PosDims ⟨0, 0, (O.width : ℚ), (O.height : ℚ)⟩ := by
    constructor
    · show (0 : ℚ) < (O.width : ℚ)
      exact_mod_cast O.width_pos
    · show (0 : ℚ) < (O.height : ℚ)
      exact_mod_cast O.height_pos
  have hheap : (freshModel O).heap
      = [mkEntry (mkQuad O ⟨0, 0, (O.width : ℚ), (O.height : ℚ)⟩ 0)] := by
    rw [freshModel]
    exact heappush_nil entryLt _
  refine ⟨?_, ?_, ?_⟩
  · rw [hheap]
    intro i j a b hij hi hj
    have hjlt := heapChild_lt hij
    rcases List.get?_eq_some.mp hj with ⟨hr, _⟩
    simp at hr
    omega
  · rw [hheap]
    intro e he
    simp at he
    rw [he]
    exact ⟨rfl, rfl, mkQuad_ok 0 hbx hpd⟩
  · rw [hheap]
    show (freshModel O).error_sum = _
    rw [freshModel]
    simp [mkEntry]

theorem minv_step {O : ImageOracle} {s s' : MState}
    (hinv : MInv O s) (h : model_split O s = some s') : MInv O s' := by
  obtain ⟨e, rest, hp, hperm, hes, hInv'⟩ := model_split_spec h
  obtain ⟨hheap, hmem, hsum⟩ := hinv
  have hpopperm := heappop_perm entryLt hp
  have heok : EntryOK O e := hmem e (hpopperm.mem_iff.mpr (by simp))
  obtain ⟨_, _, hqok⟩ := heok
  obtain ⟨hqv, hqp, _, _, _, _⟩ := hqok
  refine ⟨hInv' hheap, ?_, ?_⟩
  · intro f hf
    have hf2 := hperm.mem_iff.mp hf
    rw [List.mem_append] at hf2
    rcases hf2 with hf2 | hf2
    · rw [List.mem_map] at hf2
      obtain ⟨c, hc, rfl⟩ := hf2
      rw [List.mem_map] at hc
      obtain ⟨cb, hcb, rfl⟩ := hc
      refine ⟨rfl, rfl, mkQuad_ok _ (validBox_split hqv cb hcb)
        (posDims_split hqp cb hcb)⟩
    · exact hmem f (hpopperm.mem_iff.mpr (by simp [hf2]))
  · rw [hes, hsum]
    have h1 : ((s.heap.map fun f => f.2.2.error * (f.2.2.area : ℝ)).sum)
        = e.2.2.error * (e.2.2.area : ℝ)
          + ((rest.map fun f => f.2.2.error * (f.2.2.area : ℝ)).sum) := by
      have := (hpopperm.map fun f => f.2.2.error * (f.2.2.area : ℝ)).sum_eq
      rw [this]
      simp
    have h2 : ((s'.heap.map fun f => f.2.2.error * (f.2.2.area : ℝ)).sum)
        = (((((splitBoxList e.2.2.box).map fun bx =>
            mkQuad O bx (e.2.2.depth + 1)).map mkEntry).map
              fun f => f.2.2.error * (f.2.2.area : ℝ)).sum)
          + ((rest.map fun f => f.2.2.error * (f.2.2.area : ℝ)).sum) := by
      have := (hperm.map fun f => f.2.2.error * (f.2.2.area : ℝ)).sum_eq
      rw [this]
      simp
    rw [h2]
    have h3 : ((((splitBoxList e.2.2.box).map fun bx =>
        mkQuad O bx (e.2.2.depth + 1)).map mkEntry).map
          fun f => f.2.2.error * (f.2.2.area : ℝ))
        = (((splitBoxList e.2.2.box).map fun bx =>
            mkQuad O bx (e.2.2.depth + 1)).map fun c =>
              c.error * (c.area : ℝ)) := by
      rw [List.map_map, List.map_map]
      rfl
    rw [h3, h1]
    ring

theorem reachN_minv {O : ImageOracle} : ∀ {k : ℕ} {s : MState},
    ReachN O k s → MInv O s := by
  intro k s h
  induction h with
  | init => exact fresh_minv O
  | step h1 h2 ih => exact minv_step ih h2

theorem reach_minv {O : ImageOracle} {s : MState} (h : Reach O s) : MInv O s := by
  obtain ⟨k, hk⟩ := h
  exact reachN_minv hk

theorem greach_minv {O : ImageOracle} : ∀ {s : MState},
    GReach O s → MInv O s := by
  intro s h
  induction h with
  | init => exact fresh_minv O
  | step h1 h2 h3 ih => exact minv_step ih h3

theorem fresh_heap_eq (O : ImageOracle) :
    (freshModel O).heap
      = [mkEntry (mkQuad O ⟨0, 0, (O.width : ℚ), (O.height : ℚ)⟩ 0)] := by
  rw [freshModel]
  exact heappush_nil entryLt _

/-- C4: starting from a fresh model, after exactly `k` `Model.split()` calls
the frontier (the heap) holds exactly `1 + 3k` quads, and in every reachable
state the frontier quads' areas sum to `width * height`. -/
theorem C4_frontier_count_and_area (O : ImageOracle) (k : ℕ) (s : MState)
    (h : ReachN O k s) :
    s.heap.length = 1 + 3 * k
    ∧ (s.heap.map fun e => e.2.2.area).sum
        = (O.width : ℚ) * (O.height : ℚ) := by
  induction h with
  | init =>
    rw [fresh_heap_eq]
    constructor
    · rfl
    · simp [mkEntry, mkQuad, compute_area]
  | step h1 h2 ih =>
    next k0 s0 s0' =>
    obtain ⟨e, rest, hp, hperm, hes, _⟩ := model_split_spec h2
    have hminv := reachN_minv h1
    have hpopperm := heappop_perm entryLt hp
    have hqok : EntryOK O e := hminv.2.1 e (hpopperm.mem_iff.mpr (by simp))
    have harea : e.2.2.area = compute_area e.2.2.box := hqok.2.2.2.2.2.2.2
    have hlen1 : s0.heap.length = rest.length + 1 := by
      have := hpopperm.length_eq
      simpa using this
    have hlen2 : s0'.heap.length = 4 + rest.length := by
      have := hperm.length_eq
      simp [splitBoxList] at this
      omega
    constructor
    · omega
    · have hsum1 : (s0.heap.map fun f => f.2.2.area).sum
          = e.2.2.area + (rest.map fun f => f.2.2.area).sum := by
        have := (hpopperm.map fun f => f.2.2.area).sum_eq
        simpa using this
      have hsum2 : (s0'.heap.map fun f => f.2.2.area).sum
          = (compute_area (tlBox e.2.2.box) + compute_area (trBox e.2.2.box)
              + compute_area (blBox e.2.2.box) + compute_area (brBox e.2.2.box))
            + (rest.map fun f => f.2.2.area).sum := by
        have := (hperm.map fun f => f.2.2.area).sum_eq
        simp [splitBoxList, mkEntry, mkQuad] at this
        rw [this]
        ring
      rw [hsum2, split_area_sum, ← harea, ← hsum1]
      exact ih.2

/-- C3: in every reachable state, `error_sum` equals the sum of
`error * area` over the current frontier, and each `Model.split()` call
subtracts exactly the popped quad's `error * area` and adds exactly each of
its four new children's `error * area`. -/
theorem C3_error_sum_frontier (O : ImageOracle) (s : MState) (h : Reach O s) :
    s.error_sum = (s.heap.map fun e => e.2.2.error * (e.2.2.area : ℝ)).sum
    ∧ ∀ s', model_split O s = some s' →
        ∃ e rest, heappop entryLt s.heap = some (e, rest)
          ∧ s'.error_sum = s.error_sum - e.2.2.error * (e.2.2.area : ℝ)
              + (((splitBoxList e.2.2.box).map fun bx =>
                  mkQuad O bx (e.2.2.depth + 1)).map fun c =>
                    c.error * (c.area : ℝ)).sum := by
  constructor
  · exact (reach_minv h).2.2
  · intro s' hs'
    obtain ⟨e, rest, hp, _, hes, _⟩ := model_split_spec hs'
    exact ⟨e, rest, hp, hes⟩

/-- C2: every `Model.split()` pops a quad minimizing the ordering key
`(leaf, -(error * area ** AREA_POWER))` over the frontier: no leaf-flagged
quad is chosen while a non-leaf frontier quad exists, and among quads with
the same flag the popped quad has the largest `error * area ** AREA_POWER`. -/
theorem C2_split_pops_minimum (O : ImageOracle) (s : MState) (h : Reach O s)
    (e : Entry) (rest : List Entry)
    (hpop : heappop entryLt s.heap = some (e, rest)) :
    ∀ f ∈ s.heap,
      (f.2.2.leaf = 0 → e.2.2.leaf = 0)
      ∧ (f.2.2.leaf = e.2.2.leaf →
          f.2.2.error * (f.2.2.area : ℝ) ^ AREA_POWER
            ≤ e.2.2.error * (e.2.2.area : ℝ) ^ AREA_POWER) := by
  obtain ⟨hheap, hmem, _⟩ := reach_minv h
  intro f hf
  have hmin := heappop_min entryLt entryLt_irr entryLt_trans entryLt_ntr
    hheap hpop f hf
  obtain ⟨hf1, hf2, _⟩ := hmem f hf
  have hpopperm := heappop_perm entryLt hpop
  obtain ⟨he1, he2, _⟩ := hmem e (hpopperm.mem_iff.mpr (by simp))
  constructor
  · intro hfl
    by_contra hne
    apply hmin
    rw [entryLt]
    left
    rw [hf1, he1, hfl]
    omega
  · intro hfe
    by_contra hlt2
    push_neg at hlt2
    apply hmin
    rw [entryLt]
    right
    constructor
    · rw [hf1, he1, hfe]
    · left
      rw [hf2, he2, score, score]
      have h2 := hlt2
      nlinarith [h2]

/-! ### C1: splitting can only decrease the aggregate error -/

theorem color_error_eq (h : List ℚ) :
    (color_from_histogram h).2
      = Real.sqrt (histVar (h.take 256)) * 0.2989
        + Real.sqrt (histVar ((h.drop 256).take 256)) * 0.5870
        + Real.sqrt (histVar ((h.drop 512).take 256)) * 0.1140 := rfl

theorem histAdd4_take (x1 x2 x3 x4 : List ℚ) (n : ℕ) :
    (histAdd4 x1 x2 x3 x4).take n
      = histAdd4 (x1.take n) (x2.take n) (x3.take n) (x4.take n) := by
  simp [histAdd4, List.take_zipWith]

theorem histAdd4_drop (x1 x2 x3 x4 : List ℚ) (n : ℕ) :
    (histAdd4 x1 x2 x3 x4).drop n
      = histAdd4 (x1.drop n) (x2.drop n) (x3.drop n) (x4.drop n) := by
  simp [histAdd4, List.drop_zipWith]

theorem compute_area_pos {bx : Box} (hp : PosDims bx) : 0 < compute_area bx := by
  obtain ⟨h1, h2⟩ := hp
  rw [compute_area]
  have hx : 0 < bx.r - bx.l := by linarith
  have hy : 0 < bx.b - bx.t := by linarith
  positivity

theorem channel_bound (O : ImageOracle) (bx : Box)
    (hv : ValidBox (O.width : ℚ) (O.height : ℚ) bx) (hp : PosDims bx)
    (sl : List ℚ → List ℚ)
    (hsl_add : ∀ a b c d : List ℚ, sl (histAdd4 a b c d)
      = histAdd4 (sl a) (sl b) (sl c) (sl d))
    (hsl_len : ∀ h : List ℚ, h.length = 768 → (sl h).length = 256)
    (hsl_sub : ∀ h : List ℚ, ∀ x ∈ sl h, x ∈ h)
    (hsl_tot : ∀ cb : Box, ValidBox (O.width : ℚ) (O.height : ℚ) cb →
      (sl (O.hist cb)).sum = compute_area cb) :
    ((compute_area (tlBox bx) : ℝ)) * Real.sqrt (histVar (sl (O.hist (tlBox bx))))
      + ((compute_area (trBox bx) : ℝ)) * Real.sqrt (histVar (sl (O.hist (trBox bx))))
      + ((compute_area (blBox bx) : ℝ)) * Real.sqrt (histVar (sl (O.hist (blBox bx))))
      + ((compute_area (brBox bx) : ℝ)) * Real.sqrt (histVar (sl (O.hist (brBox bx))))
    ≤ ((compute_area bx : ℝ)) * Real.sqrt (histVar (sl (O.hist bx))) := by
  have hvtl : ValidBox (O.width : ℚ) (O.height : ℚ) (tlBox bx) :=
    validBox_split hv _ (by simp [splitBoxList])
  have hvtr : ValidBox (O.width : ℚ) (O.height : ℚ) (trBox bx) :=
    validBox_split hv _ (by simp [splitBoxList])
  have hvbl : ValidBox (O.width : ℚ) (O.height : ℚ) (blBox bx) :=
    validBox_split hv _ (by simp [splitBoxList])
  have hvbr : ValidBox (O.width : ℚ) (O.height : ℚ) (brBox bx) :=
    validBox_split hv _ (by simp [splitBoxList])
  have hptl : PosDims (tlBox bx) := posDims_split hp _ (by simp [splitBoxList])
  have hptr : PosDims (trBox bx) := posDims_split hp _ (by simp [splitBoxList])
  have hpbl : PosDims (blBox bx) := posDims_split hp _ (by simp [splitBoxList])
  have hpbr : PosDims (brBox bx) := posDims_split hp _ (by simp [splitBoxList])
  have key := channel_split_le (sl (O.hist (tlBox bx))) (sl (O.hist (trBox bx)))
    (sl (O.hist (blBox bx))) (sl (O.hist (brBox bx)))
    (compute_area (tlBox bx)) (compute_area (trBox bx))
    (compute_area (blBox bx)) (compute_area (brBox bx))
    (fun x hx => O.hist_nonneg _ hvtl x (hsl_sub _ x hx))
    (fun x hx => O.hist_nonneg _ hvtr x (hsl_sub _ x hx))
    (fun x hx => O.hist_nonneg _ hvbl x (hsl_sub _ x hx))
    (fun x hx => O.hist_nonneg _ hvbr x (hsl_sub _ x hx))
    (hsl_tot _ hvtl) (hsl_tot _ hvtr) (hsl_tot _ hvbl) (hsl_tot _ hvbr)
    (compute_area_pos hptl) (compute_area_pos hptr)
    (compute_area_pos hpbl) (compute_area_pos hpbr)
    (by rw [hsl_len _ (O.hist_length _), hsl_len _ (O.hist_length _)])
    (by rw [hsl_len _ (O.hist_length _), hsl_len _ (O.hist_length _)])
    (by rw [hsl_len _ (O.hist_length _), hsl_len _ (O.hist_length _)])
  have hsplit : sl (O.hist bx) = histAdd4 (sl (O.hist (tlBox bx)))
      (sl (O.hist (trBox bx))) (sl (O.hist (blBox bx)))
      (sl (O.hist (brBox bx))) := by
    rw [O.hist_split bx hv, hsl_add]
  rw [hsplit]
  have harea : ((compute_area (tlBox bx) : ℝ)) + (compute_area (trBox bx) : ℝ)
      + (compute_area (blBox bx) : ℝ) + (compute_area (brBox bx) : ℝ)
      = ((compute_area bx : ℝ)) := by
    have := split_area_sum bx
    exact_mod_cast congrArg (fun q : ℚ => (q : ℝ)) this
  rw [← harea]
  exact key

theorem split_children_error_le (O : ImageOracle) (bx : Box) (d : ℕ)
    (hv : ValidBox (O.width : ℚ) (O.height : ℚ) bx) (hp : PosDims bx) :
    (((splitBoxList bx).map fun cb => mkQuad O cb d).map fun c =>
        c.error * (c.area : ℝ)).sum
      ≤ (color_from_histogram (O.hist bx)).2 * ((compute_area bx : ℚ) : ℝ) := by
  have hR := channel_bound O bx hv hp (fun h => h.take 256)
    (fun a b c d => histAdd4_take a b c d 256)
    (fun h hl => by dsimp only; rw [List.length_take, hl]; rfl)
    (fun h x hx => List.mem_of_mem_take hx)
    (fun cb hcb => O.hist_total_r cb hcb)
  have hG := channel_bound O bx hv hp (fun h => (h.drop 256).take 256)
    (fun a b c d => by dsimp only; rw [histAdd4_drop, histAdd4_take])
    (fun h hl => by dsimp only; rw [List.length_take, List.length_drop, hl]; rfl)
    (fun h x hx => List.mem_of_mem_drop (List.mem_of_mem_take hx))
    (fun cb hcb => O.hist_total_g cb hcb)
  have hB := channel_bound O bx hv hp (fun h => (h.drop 512).take 256)
    (fun a b c d => by dsimp only; rw [histAdd4_drop, histAdd4_take])
    (fun h hl => by dsimp only; rw [List.length_take, List.length_drop, hl]; rfl)
    (fun h x hx => List.mem_of_mem_drop (List.mem_of_mem_take hx))
    (fun cb hcb => O.hist_total_b cb hcb)
  dsimp only at hR hG hB
  have hR2 := mul_le_mul_of_nonneg_right hR (show (0 : ℝ) ≤ 0.2989 by norm_num)
  have hG2 := mul_le_mul_of_nonneg_right hG (show (0 : ℝ) ≤ 0.5870 by norm_num)
  have hB2 := mul_le_mul_of_nonneg_right hB (show (0 : ℝ) ≤ 0.1140 by norm_num)
  simp only [splitBoxList, List.map_cons, List.map_nil, List.sum_cons,
    List.sum_nil, add_zero]
  show (mkQuad O (tlBox bx) d).error * ((mkQuad O (tlBox bx) d).area : ℝ)
      + ((mkQuad O (trBox bx) d).error * ((mkQuad O (trBox bx) d).area : ℝ)
      + ((mkQuad O (blBox bx) d).error * ((mkQuad O (blBox bx) d).area : ℝ)
      + (mkQuad O (brBox bx) d).error * ((mkQuad O (brBox bx) d).area : ℝ)))
      ≤ _
  have etl : (mkQuad O (tlBox bx) d).error
      = (color_from_histogram (O.hist (tlBox bx))).2 := rfl
  have etr : (mkQuad O (trBox bx) d).error
      = (color_from_histogram (O.hist (trBox bx))).2 := rfl
  have ebl : (mkQuad O (blBox bx) d).error
      = (color_from_histogram (O.hist (blBox bx))).2 := rfl
  have ebr : (mkQuad O (brBox bx) d).error
      = (color_from_histogram (O.hist (brBox bx))).2 := rfl
  have atl : (mkQuad O (tlBox bx) d).area = compute_area (tlBox bx) := rfl
  have atr : (mkQuad O (trBox bx) d).area = compute_area (trBox bx) := rfl
  have abl : (mkQuad O (blBox bx) d).area = compute_area (blBox bx) := rfl
  have abr : (mkQuad O (brBox bx) d).area = compute_area (brBox bx) := rfl
  rw [etl, etr, ebl, ebr, atl, atr, abl, abr]
  rw [color_error_eq, color_error_eq, color_error_eq, color_error_eq,
    color_error_eq]
  nlinarith [hR2, hG2, hB2]

theorem split_decreases_error_sum {O : ImageOracle} {s s' : MState}
    (hinv : MInv O s) (h : model_split O s = some s') :
    s'.error_sum ≤ s.error_sum := by
  obtain ⟨e, rest, hp, _, hes, _⟩ := model_split_spec h
  have hpopperm := heappop_perm entryLt hp
  have hqok : EntryOK O e := hinv.2.1 e (hpopperm.mem_iff.mpr (by simp))
  have hqv := hqok.2.2.1
  have hqp := hqok.2.2.2.1
  have herr : e.2.2.error = (color_from_histogram (O.hist e.2.2.box)).2 :=
    hqok.2.2.2.2.2.1
  have harea : e.2.2.area = compute_area e.2.2.box := hqok.2.2.2.2.2.2.2
  have hk := split_children_error_le O e.2.2.box (e.2.2.depth + 1) hqv hqp
  have heq : e.2.2.error * (e.2.2.area : ℝ)
      = (color_from_histogram (O.hist e.2.2.box)).2
        * ((compute_area e.2.2.box : ℚ) : ℝ) := by
    rw [herr, harea]
  rw [hes]
  linarith

/-- C1: for every loaded image, `average_error` is monotonically
non-increasing across successive `Model.split()` calls: from any state
reachable by repeated splits (performed while every frontier quad still has
both dimensions greater than 1), one more `Model.split()` cannot increase
`average_error`. -/
theorem C1_average_error_monotone (O : ImageOracle) (s s' : MState)
    (hre : GReach O s) (hbig : BigDims s)
    (h : model_split O s = some s') :
    average_error O s' ≤ average_error O s := by
  have hinv := greach_minv hre
  have hle := split_decreases_error_sum hinv h
  rw [average_error, average_error]
  have hwh : (0 : ℝ) < (O.width : ℝ) * (O.height : ℝ) := by
    have h1 : (0 : ℝ) < (O.width : ℝ) := by exact_mod_cast O.width_pos
    have h2 : (0 : ℝ) < (O.height : ℝ) := by exact_mod_cast O.height_pos
    positivity
  exact (div_le_div_right hwh).mpr hle

/-! ### C10: channel ranges and error nonnegativity -/

/-- C10: for every 768-entry histogram of nonnegative integer counts,
`color_from_histogram` returns three channels in the range 0..255 and a
nonnegative error; consequently every constructed `Quad` carries a valid
RGB triple and a nonnegative error. -/
theorem C10_color_and_error_range :
    (∀ h : List ℕ, h.length = 768 →
      (0 ≤ (color_from_histogram (h.map fun x : ℕ => (x : ℚ))).1.1
        ∧ (color_from_histogram (h.map fun x : ℕ => (x : ℚ))).1.1 ≤ 255)
      ∧ (0 ≤ (color_from_histogram (h.map fun x : ℕ => (x : ℚ))).1.2.1
        ∧ (color_from_histogram (h.map fun x : ℕ => (x : ℚ))).1.2.1 ≤ 255)
      ∧ (0 ≤ (color_from_histogram (h.map fun x : ℕ => (x : ℚ))).1.2.2
        ∧ (color_from_histogram (h.map fun x : ℕ => (x : ℚ))).1.2.2 ≤ 255)
      ∧ 0 ≤ (color_from_histogram (h.map fun x : ℕ => (x : ℚ))).2)
    ∧ (∀ (O : ImageOracle) (bx : Box) (d : ℕ),
        ValidBox (O.width : ℚ) (O.height : ℚ) bx →
        (0 ≤ (mkQuad O bx d).color.1 ∧ (mkQuad O bx d).color.1 ≤ 255)
        ∧ (0 ≤ (mkQuad O bx d).color.2.1 ∧ (mkQuad O bx d).color.2.1 ≤ 255)
        ∧ (0 ≤ (mkQuad O bx d).color.2.2 ∧ (mkQuad O bx d).color.2.2 ≤ 255)
        ∧ 0 ≤ (mkQuad O bx d).error) := by
  constructor
  · intro h _
    have hn : ∀ x ∈ (h.map fun x : ℕ => (x : ℚ)), (0 : ℚ) ≤ x := by
      intro x hx
      obtain ⟨y, _, hxy⟩ := List.mem_map.mp hx
      rw [← hxy]
      exact_mod_cast Nat.zero_le y
    exact color_from_histogram_bounds _ hn
  · intro O bx d hv
    have hn := O.hist_nonneg bx hv
    have hc : (mkQuad O bx d).color = (color_from_histogram (O.hist bx)).1 := rfl
    have he : (mkQuad O bx d).error = (color_from_histogram (O.hist bx)).2 := rfl
    rw [hc, he]
    exact color_from_histogram_bounds _ hn

set_option maxRecDepth 8000 in
/-- Witness for C10 at the all-zero 768-entry histogram. -/
theorem C10_color_and_error_range_witness :
    (List.replicate 768 0).length = 768
    ∧ ((0 ≤ (color_from_histogram ((List.replicate 768 0).map fun x : ℕ => (x : ℚ))).1.1
        ∧ (color_from_histogram ((List.replicate 768 0).map fun x : ℕ => (x : ℚ))).1.1 ≤ 255)
      ∧ (0 ≤ (color_from_histogram ((List.replicate 768 0).map fun x : ℕ => (x : ℚ))).1.2.1
        ∧ (color_from_histogram ((List.replicate 768 0).map fun x : ℕ => (x : ℚ))).1.2.1 ≤ 255)
      ∧ (0 ≤ (color_from_histogram ((List.replicate 768 0).map fun x : ℕ => (x : ℚ))).1.2.2
        ∧ (color_from_histogram ((List.replicate 768 0).map fun x : ℕ => (x : ℚ))).1.2.2 ≤ 255)
      ∧ 0 ≤ (color_from_histogram ((List.replicate 768 0).map fun x : ℕ => (x : ℚ))).2) :=
  ⟨by simp, C10_color_and_error_range.1 (List.replicate 768 0) (by simp)⟩

/-! ### A concrete image: the 2×2 all-black raster -/

theorem singleHist_mem {c : ℕ} {n x : ℚ} (hx : x ∈ singleHist c n) :
    x = n ∨ x = 0 := by
  rw [singleHist, List.mem_map] at hx
  obtain ⟨j, _, rfl⟩ := hx
  split
  · exact Or.inl rfl
  · exact Or.inr rfl

theorem zipWith_map_same (op : ℚ → ℚ → ℚ) (f g : ℕ → ℚ) :
    ∀ l : List ℕ,
      List.zipWith op (l.map f) (l.map g) = l.map fun x => op (f x) (g x) := by
  intro l
  induction l with
  | nil => simp
  | cons a t ih => simp [ih]

theorem singleHist_add (c : ℕ) (a b : ℚ) :
    List.zipWith (· + ·) (singleHist c a) (singleHist c b)
      = singleHist c (a + b) := by
  rw [singleHist, singleHist, singleHist, zipWith_map_same]
  refine List.map_congr_left fun j _ => ?_
  by_cases hj : j = c <;> simp [hj]

theorem constHistVal_zip (a b : ℚ) :
    List.zipWith (· + ·) (constHistVal a) (constHistVal b)
      = constHistVal (a + b) := by
  rw [constHistVal, constHistVal, constHistVal]
  rw [List.zipWith_append _ _ _ _ _ (by simp [singleHist_length])]
  rw [List.zipWith_append _ _ _ _ _ (by simp [singleHist_length])]
  rw [singleHist_add]

theorem constHist_split_eq (bx : Box) :
    constHist bx = histAdd4 (constHist (tlBox bx)) (constHist (trBox bx))
      (constHist (blBox bx)) (constHist (brBox bx)) := by
  rw [constHist, constHist, constHist, constHist, constHist, histAdd4,
    constHistVal_zip, constHistVal_zip, constHistVal_zip]
  congr 1
  have := split_area_sum bx
  linarith

theorem constHistVal_take (n : ℚ) :
    (constHistVal n).take 256 = singleHist 0 n := by
  rw [constHistVal, List.append_assoc, List.take_left' (singleHist_length 0 n)]

theorem constHistVal_dropG (n : ℚ) :
    ((constHistVal n).drop 256).take 256 = singleHist 0 n := by
  rw [constHistVal, List.append_assoc, List.drop_left' (singleHist_length 0 n),
    List.take_left' (singleHist_length 0 n)]

theorem constHistVal_dropB (n : ℚ) :
    ((constHistVal n).drop 512).take 256 = singleHist 0 n := by
  rw [constHistVal]
  rw [List.drop_left' (show (singleHist 0 n ++ singleHist 0 n).length = 512 by
    simp [singleHist_length])]
  rw [List.take_of_length_le (le_of_eq (singleHist_length 0 n))]

theorem compute_area_nonneg {W H : ℚ} {bx : Box} (hv : ValidBox W H bx) :
    0 ≤ compute_area bx := by
  obtain ⟨h1, h2, h3, h4, h5, h6⟩ := hv
  rw [compute_area]
  have hx : 0 ≤ bx.r - bx.l := by linarith
  have hy : 0 ≤ bx.b - bx.t := by linarith
  positivity

/-- The 2×2 all-black raster as a pixel source: every crop reports its whole
mass (the crop's area) in bucket 0 of each channel. It satisfies the full
pixel-source contract and is the concrete image used by the witnesses. -/
def constOracle : ImageOracle where
  width := 2
  height := 2
  hist := constHist
  width_pos := by norm_num
  height_pos := by norm_num
  hist_length := by
    intro bx
    simp [constHist, constHistVal, singleHist_length]
  hist_nonneg := by
    intro bx hv x hx
    have harea : 0 ≤ compute_area bx := compute_area_nonneg hv
    rw [constHist, constHistVal] at hx
    rw [List.mem_append] at hx
    rcases hx with hx | hx
    · rw [List.mem_append] at hx
      rcases hx with hx | hx <;> rcases singleHist_mem hx with rfl | rfl <;>
        first
          | exact harea
          | exact le_refl 0
    · rcases singleHist_mem hx with rfl | rfl
      · exact harea
      · exact le_refl 0
  hist_total_r := by
    intro bx hv
    rw [constHist, constHistVal_take, singleHist_sum _ (by norm_num)]
  hist_total_g := by
    intro bx hv
    rw [constHist, constHistVal_dropG, singleHist_sum _ (by norm_num)]
  hist_total_b := by
    intro bx hv
    rw [constHist, constHistVal_dropB, singleHist_sum _ (by norm_num)]
  hist_split := by
    intro bx hv
    exact constHist_split_eq bx

theorem model_split_fresh_ex (O : ImageOracle) :
    ∃ s', model_split O (freshModel O) = some s' := by
  rw [model_split, fresh_heap_eq O, heappop_singleton]
  exact ⟨_, rfl⟩

/-- Witness for C1: one guarded split from the fresh 2×2 model does not
increase the average error. -/
theorem C1_average_error_monotone_witness :
    (GReach constOracle (freshModel constOracle)
      ∧ BigDims (freshModel constOracle))
    ∧ ∃ s', model_split constOracle (freshModel constOracle) = some s'
        ∧ average_error constOracle s'
            ≤ average_error constOracle (freshModel constOracle) := by
  have hbig : BigDims (freshModel constOracle) := by
    rw [BigDims, fresh_heap_eq]
    intro e he
    simp only [List.mem_singleton] at he
    rw [he]
    constructor
    · show (1 : ℚ) < (constOracle.width : ℚ) - 0
      norm_num [constOracle]
    · show (1 : ℚ) < (constOracle.height : ℚ) - 0
      norm_num [constOracle]
  obtain ⟨s', hs'⟩ := model_split_fresh_ex constOracle
  exact ⟨⟨GReach.init, hbig⟩, s', hs',
    C1_average_error_monotone constOracle _ s' GReach.init hbig hs'⟩

/-- Witness for C2: popping from the fresh 2×2 model returns its only
frontier entry, which trivially minimizes the ordering key. -/
theorem C2_split_pops_minimum_witness :
    (Reach constOracle (freshModel constOracle)
      ∧ heappop entryLt (freshModel constOracle).heap
          = some (mkEntry (mkQuad constOracle
              ⟨0, 0, (constOracle.width : ℚ), (constOracle.height : ℚ)⟩ 0), []))
    ∧ ∀ f ∈ (freshModel constOracle).heap,
        (f.2.2.leaf = 0 →
          (mkEntry (mkQuad constOracle
            ⟨0, 0, (constOracle.width : ℚ), (constOracle.height : ℚ)⟩ 0)).2.2.leaf = 0)
        ∧ (f.2.2.leaf = (mkEntry (mkQuad constOracle
              ⟨0, 0, (constOracle.width : ℚ), (constOracle.height : ℚ)⟩ 0)).2.2.leaf →
            f.2.2.error * (f.2.2.area : ℝ) ^ AREA_POWER
              ≤ (mkEntry (mkQuad constOracle
                  ⟨0, 0, (constOracle.width : ℚ), (constOracle.height : ℚ)⟩ 0)).2.2.error
                * ((mkEntry (mkQuad constOracle
                    ⟨0, 0, (constOracle.width : ℚ), (constOracle.height : ℚ)⟩ 0)).2.2.area : ℝ)
                  ^ AREA_POWER) := by
  have hpop : heappop entryLt (freshModel constOracle).heap
      = some (mkEntry (mkQuad constOracle
          ⟨0, 0, (constOracle.width : ℚ), (constOracle.height : ℚ)⟩ 0), []) := by
    rw [fresh_heap_eq, heappop_singleton]
  exact ⟨⟨⟨0, ReachN.init⟩, hpop⟩,
    C2_split_pops_minimum constOracle _ ⟨0, ReachN.init⟩ _ _ hpop⟩

/-- Witness for C3 at the fresh 2×2 model. -/
theorem C3_error_sum_frontier_witness :
    Reach constOracle (freshModel constOracle)
    ∧ ((freshModel constOracle).error_sum
        = ((freshModel constOracle).heap.map fun e =>
            e.2.2.error * (e.2.2.area : ℝ)).sum
      ∧ ∀ s', model_split constOracle (freshModel constOracle) = some s' →
          ∃ e rest, heappop entryLt (freshModel constOracle).heap = some (e, rest)
            ∧ s'.error_sum = (freshModel constOracle).error_sum
                - e.2.2.error * (e.2.2.area : ℝ)
                + (((splitBoxList e.2.2.box).map fun bx =>
                    mkQuad constOracle bx (e.2.2.depth + 1)).map fun c =>
                      c.error * (c.area : ℝ)).sum) :=
  ⟨⟨0, ReachN.init⟩,
    C3_error_sum_frontier constOracle _ ⟨0, ReachN.init⟩⟩

/-- Witness for C4 at the fresh 2×2 model (`k = 0`). -/
theorem C4_frontier_count_and_area_witness :
    ReachN constOracle 0 (freshModel constOracle)
    ∧ ((freshModel constOracle).heap.length = 1 + 3 * 0
      ∧ ((freshModel constOracle).heap.map fun e => e.2.2.area).sum
          = (constOracle.width : ℚ) * (constOracle.height : ℚ)) :=
  ⟨ReachN.init,
    C4_frontier_count_and_area constOracle 0 _ ReachN.init⟩

end Quads
